import Mathlib

/-!
Verification of the GLSL shader processor (`scripts/glsl_processor.py`).

The script is a pipeline of pure text transformations:
`process_includes → remove_comments → remove_newlines → normalize_spaces →
optimize_float_literals`, optionally followed by `compress_shader`.

We embed strings as `List Char` (Python 3 `str` is a sequence of Unicode
scalar values, as is Lean's `Char`).  Python's regex substitutions are
transcribed as left-to-right scanners that reproduce the exact
leftmost / greedy-with-backtracking semantics of each concrete pattern;
each transcription is justified in its doc comment.
-/

/-- Text, modelling a Python 3 `str` as a list of Unicode scalar values. -/
abbrev Str := List Char

/-- Conversion helper from Lean string literals. -/
def ofStr (s : String) : Str := s.toList

/-- Python's `str.isspace` set (also the set matched by `\s` in the `re`
module for `str` patterns — the two sets are identical in CPython):
characters with Unicode bidirectional class WS, B or S, or category Zs. -/
def pyIsSpace (c : Char) : Bool :=
  let n := c.toNat
  n = 0x20 || n = 0x9 || n = 0xa || n = 0xb || n = 0xc || n = 0xd ||
  n = 0x1c || n = 0x1d || n = 0x1e || n = 0x1f || n = 0x85 || n = 0xa0 ||
  n = 0x1680 || (0x2000 <= n && n <= 0x200a) || n = 0x2028 || n = 0x2029 ||
  n = 0x202f || n = 0x205f || n = 0x3000

/-- The line boundaries recognised by Python's `str.splitlines`
(code points a, b, c, d, 1c, 1d, 1e, 85, 2028, 2029 in hex, plus the
two-character boundary `\r\n` handled in `splitlines` itself). -/
def isLineBoundary (c : Char) : Bool :=
  let n := c.toNat
  n = 0xa || n = 0xd || n = 0xb || n = 0xc ||
  n = 0x1c || n = 0x1d || n = 0x1e || n = 0x85 ||
  n = 0x2028 || n = 0x2029


/-- The characters matched by `[ \t]` in the script's normalization regexes. -/
def isST (c : Char) : Bool := c = ' ' || c = '\t'

/-- ASCII word characters, as used by `\b` in the float-literal regexes.
(The script's inputs are GLSL source; for ASCII text this agrees exactly
with Python's Unicode `\b`.) -/
def isWordChar (c : Char) : Bool :=
  c.isAlpha || c.isDigit || c = '_'

/-- `'0'..'9'`, the characters matched by `\d` on ASCII text. -/
def isDigitCh (c : Char) : Bool := '0' ≤ c && c ≤ '9'

/-! ## `optimize_float_literals`

Source (`glsl_processor.py`, lines 101–105):
```
def optimize_float_literals(shader_content):
    shader_content = re.sub(r'\b(\d+)\.0+(?!\d)', r'\1.', shader_content)
    shader_content = re.sub(r'\b0\.([1-9]\d*)\b', r'.\1', shader_content)
    return shader_content
```

Pattern 1, `\b(\d+)\.0+(?!\d)`: at a position preceded by a non-word
character (or the start), match a maximal digit run (shorter runs fail
because the next character would be a digit, not `.`), then `.`, then a
maximal nonempty run of `0`s whose following character is not a digit
(shorter zero runs fail the lookahead because the next character would be
`0`).  The replacement is the digit group followed by `.`; scanning
resumes after the match, whose last character is `0`, a word character.

Pattern 2, `\b0\.([1-9]\d*)\b`: `0` at a word boundary, `.`, a maximal
digit run beginning with a nonzero digit (shorter runs fail the trailing
`\b` because the next character would be a digit), whose following
character is not a word character.  Replacement: `.` plus the group.

Both scanners carry the fuel `n`, initially the string length; every
step consumes at least one character, so the fuel is never exhausted. -/

/-- Scanner for `re.sub(r'\b(\d+)\.0+(?!\d)', r'\1.', s)`.
`prevWord` records whether the previous character of the original string
is a word character (for `\b`). -/
def floatSub1 : Nat → Bool → Str → Str
  | 0, _, s => s
  | _ + 1, _, [] => []
  | n + 1, prevWord, c :: cs =>
    if !prevWord && isDigitCh c then
      let ds := c :: cs.takeWhile isDigitCh
      let rest := cs.dropWhile isDigitCh
      match rest with
      | '.' :: r2 =>
        let zs := r2.takeWhile (fun z => z = '0')
        let r3 := r2.dropWhile (fun z => z = '0')
        if zs ≠ [] && !(match r3.head? with | some d => isDigitCh d | none => false) then
          ds ++ '.' :: floatSub1 n true r3
        else
          c :: floatSub1 n (isWordChar c) cs
      | _ => c :: floatSub1 n (isWordChar c) cs
    else
      c :: floatSub1 n (isWordChar c) cs

/-- Scanner for `re.sub(r'\b0\.([1-9]\d*)\b', r'.\1', s)`. -/
def floatSub2 : Nat → Bool → Str → Str
  | 0, _, s => s
  | _ + 1, _, [] => []
  | n + 1, prevWord, c :: cs =>
    if !prevWord && c = '0' then
      match cs with
      | '.' :: r2 =>
        let run := r2.takeWhile isDigitCh
        let after := r2.dropWhile isDigitCh
        if (match run.head? with | some d => isDigitCh d && d ≠ '0' | none => false)
            && !(match after.head? with | some a => isWordChar a | none => false) then
          '.' :: run ++ floatSub2 n true after
        else
          c :: floatSub2 n (isWordChar c) cs
      | _ => c :: floatSub2 n (isWordChar c) cs
    else
      c :: floatSub2 n (isWordChar c) cs

/-- `optimize_float_literals` (lines 101–105): the two substitutions in
source order. -/
def optimize_float_literals (s : Str) : Str :=
  let s1 := floatSub1 s.length false s
  floatSub2 s1.length false s1

example : optimize_float_literals (ofStr (r"1.000")) = ofStr (r"1.") := by decide
example : optimize_float_literals (ofStr (r"0.5")) = ofStr (r".5") := by decide
example : optimize_float_literals (ofStr (r"0.0")) = ofStr (r"0.") := by decide
example : optimize_float_literals (ofStr (r"10.00")) = ofStr (r"10.") := by decide
example : optimize_float_literals (ofStr (r"0.50")) = ofStr (r".50") := by decide
example : optimize_float_literals (ofStr (r"x=0.0;")) = ofStr (r"x=0.;") := by decide
example : optimize_float_literals (ofStr (r"0.5f")) = ofStr (r"0.5f") := by decide
example : optimize_float_literals (ofStr (r"00.5")) = ofStr (r"00.5") := by decide
example : optimize_float_literals (ofStr (r"3.14")) = ofStr (r"3.14") := by decide

/-! ## Line splitting -/

/-- Prepend a character to the first piece of a split (creating a piece if
there is none). -/
def consFst (c : Char) : List Str → List Str
  | [] => [[c]]
  | l :: ls => (c :: l) :: ls

/-- Python's `str.splitlines()`: split at every line boundary (see
`isLineBoundary`), with `\r\n` counting as a single boundary; a trailing
boundary does not produce a final empty line, and `"".splitlines() = []`. -/
def splitlines : Str → List Str
  | [] => []
  | '\x0d' :: '\n' :: cs2 => [] :: splitlines cs2
  | c :: cs =>
    if isLineBoundary c then [] :: splitlines cs else consFst c (splitlines cs)

/-- Python's `str.split('\n')`: split at every `'\n'`; `"".split('\n')`
is `[""]` and a trailing newline produces a final empty piece. -/
def splitNl : Str → List Str
  | [] => [[]]
  | c :: cs => if c = '\n' then [] :: splitNl cs else consFst c (splitNl cs)

/-- Python's `'\n'.join(...)`. -/
def intercalateNl : List Str → Str
  | [] => []
  | [l] => l
  | l :: ls => l ++ '\n' :: intercalateNl ls

/-- Python's `str.lstrip()` (with no argument). -/
def pyLstrip (l : Str) : Str := l.dropWhile pyIsSpace

/-- Python's `str.strip()` (with no argument). -/
def pyStrip (l : Str) : Str :=
  ((l.dropWhile pyIsSpace).reverse.dropWhile pyIsSpace).reverse

example : splitlines (ofStr (r"ab") ++ '\x0d' :: '\n' :: ofStr (r"c") ++ ['\n']) =
    [ofStr (r"ab"), ofStr (r"c")] := by decide
example : splitlines ['\n'] = [[]] := by decide
example : splitlines [] = [] := by decide
example : splitNl ['a', '\n'] = [['a'], []] := by decide
example : splitNl [] = [[]] := by decide

/-! ## `remove_comments`

Source (lines 49–53):
```
def remove_comments(shader_content):
    shader_content = re.sub(r'/\*.*?\*/', '', shader_content, flags=re.DOTALL)
    shader_content = re.sub(r'//.*?(?=\n|$)', '', shader_content)
    return shader_content
```

Pattern `/\*.*?\*/` with DOTALL: from each `/*` (scanning left to right),
the non-greedy `.*?` stops at the first following `*/` (any characters,
newlines included, in between); if no `*/` follows, there is no match and
the `/*` is kept.  Pattern `//.*?(?=\n|$)`: from each `//`, remove up to
(but not including) the next `'\n'`, or to the end of the text.  The
block pass runs first, the line pass on its result. -/

/-- First suffix after the next `*/`, if any (the non-greedy `.*?\*/`). -/
def findClose : Str → Option Str
  | [] => none
  | c :: cs =>
    match cs with
    | c2 :: cs2 => if c = '*' && c2 = '/' then some cs2 else findClose cs
    | [] => none

/-- Scanner for `re.sub(r'/\*.*?\*/', '', s, flags=re.DOTALL)`.  The fuel
starts at the string length; every step consumes at least one character. -/
def rmBlockF : Nat → Str → Str
  | 0, s => s
  | _ + 1, [] => []
  | n + 1, c :: cs =>
    if c = '/' && cs.head? = some '*' then
      match findClose cs.tail with
      | some r => rmBlockF n r
      | none => c :: rmBlockF n cs
    else c :: rmBlockF n cs

/-- State of the line-comment scanner: outside a comment, outside with a
pending unmatched `/`, or inside a `//` comment. -/
inductive CommentSt where
  | norm : CommentSt
  | slash : CommentSt
  | inC : CommentSt
deriving DecidableEq

/-- Scanner for `re.sub(r'//.*?(?=\n|$)', '', s)`: from each `//`, drop
every character up to (but not including) the next newline or the end of
the text.  A lone `/` is emitted once the next character shows it does
not open a `//`. -/
def rmLineGo : CommentSt → Str → Str
  | CommentSt.slash, [] => ['/']
  | _, [] => []
  | CommentSt.norm, c :: cs =>
    if c = '/' then rmLineGo CommentSt.slash cs else c :: rmLineGo CommentSt.norm cs
  | CommentSt.slash, c :: cs =>
    if c = '/' then rmLineGo CommentSt.inC cs else '/' :: c :: rmLineGo CommentSt.norm cs
  | CommentSt.inC, c :: cs =>
    if c = '\n' then '\n' :: rmLineGo CommentSt.norm cs else rmLineGo CommentSt.inC cs

/-- `remove_comments` (lines 49–53): block comments first, then line
comments on the result. -/
def remove_comments (s : Str) : Str :=
  let s1 := rmBlockF s.length s
  rmLineGo CommentSt.norm s1

example : remove_comments (ofStr (r"a/*x") ++ '\n' :: ofStr (r"y*/b*/c")) = ofStr (r"ab*/c") := by decide
example : remove_comments (ofStr (r"a//b") ++ '\n' :: ofStr (r"c")) = ['a', '\n', 'c'] := by decide
example : remove_comments (ofStr (r"x///*") ++ '\n' :: ofStr (r"*/y")) = ofStr (r"x") := by decide
example : remove_comments (ofStr (r"a/*b")) = ofStr (r"a/*b") := by decide
example : remove_comments (ofStr (r"a/*b*/c/*d*/e")) = ofStr (r"ace") := by decide

/-! ## `remove_newlines`

Source (lines 55–70):
```
def remove_newlines(shader_content):
    lines = [line for line in shader_content.splitlines() if line.strip()]
    if not lines:
        return ""
    result = []
    for i, line in enumerate(lines):
        is_directive = line.lstrip().startswith('#')
        prev_directive = i > 0 and lines[i-1].lstrip().startswith('#')
        next_directive = i < len(lines)-1 and lines[i+1].lstrip().startswith('#')
        if i > 0 and (is_directive or prev_directive or next_directive):
            result.append("\n")
        result.append(line)
    return "".join(result)
```

The loop is transcribed as a recursion carrying the previous line's
directive flag; `lines[i+1]` is the head of the remaining list, and the
`i > 0` guard is the separate treatment of the first line. -/

/-- `line.lstrip().startswith('#')`. -/
def isDirLine (l : Str) : Bool := (pyLstrip l).head? = some '#'

/-- The non-blank lines of the input (`line.strip()` truthy). -/
def keptLines (s : Str) : List Str :=
  (splitlines s).filter (fun l => pyStrip l ≠ [])

/-- The loop body of `remove_newlines` for `i > 0`: `prevDir` is the
directive flag of `lines[i-1]`. -/
def rnRest (prevDir : Bool) : List Str → Str
  | [] => []
  | l :: ls =>
    let nextDir := match ls.head? with | some n2 => isDirLine n2 | none => false
    (if isDirLine l || prevDir || nextDir then '\n' :: l else l) ++ rnRest (isDirLine l) ls

/-- `remove_newlines` (lines 55–70). -/
def remove_newlines (s : Str) : Str :=
  match keptLines s with
  | [] => []
  | l :: ls => l ++ rnRest (isDirLine l) ls

example : remove_newlines (ofStr (r"a") ++ '\n' :: '\n' :: ofStr (r"#b") ++ '\n' :: ofStr (r"c d") ++ '\n' :: ofStr (r"e")) =
    ofStr (r"a") ++ '\n' :: ofStr (r"#b") ++ '\n' :: ofStr (r"c de") := by decide
example : remove_newlines [' ', '\n', '\t', '\n'] = [] := by decide
example : remove_newlines (ofStr (r"x") ++ '\n' :: ofStr (r"y") ++ '\n' :: ofStr (r"z")) = ofStr (r"xyz") := by decide

/-! ## `normalize_spaces`

Source (lines 72–99):
```
def normalize_spaces(shader_content):
    lines = shader_content.split('\n')
    processed_lines = []
    symbols = [',', '.', '(', ')', '{', '}', ';', ':',
               '+', '-', '*', '/', '=', '<', '>', '!', '?', '|', '&']
    for line in lines:
        if line.lstrip().startswith('#'):
            line = re.sub(r'^\s*#', '#', line)
            line = re.sub(r'[ \t]+', ' ', line)
            processed_lines.append(line)
        else:
            processed_line = line
            for symbol in symbols:
                escaped = re.escape(symbol)
                processed_line = re.sub(rf'[ \t]+{escaped}', symbol, processed_line)
                processed_line = re.sub(rf'{escaped}[ \t]+', symbol, processed_line)
            processed_line = re.sub(r'[ \t]+', ' ', processed_line)
            processed_lines.append(processed_line)
    return '\n'.join(processed_lines)
```

`re.sub(r'[ \t]+d', d, line)` deletes every maximal space/tab run that is
immediately followed by the (non-space) symbol `d`; per character this
deletes a space/tab exactly when the remainder of its run is followed by
`d`.  `re.sub(r'd[ \t]+', d, line)` deletes every space/tab run
immediately preceded by `d`; the scanner state records whether the
previous kept character was `d` (remaining `true` across a dropped run).
`re.sub(r'[ \t]+', ' ', line)` keeps the first character of each
space/tab run as a single space.  `re.sub(r'^\s*#', '#', line)` deletes
the (whitespace-only) prefix before a leading `#`; if the first
non-whitespace character is not `#` the pattern cannot match at all. -/

/-- Scanner for `re.sub(r'[ \t]+{d}', d, s)` (one symbol `d`). -/
def subBefore (d : Char) : Str → Str
  | [] => []
  | c :: cs =>
    if isST c && ((cs.dropWhile isST).head? = some d) then subBefore d cs
    else c :: subBefore d cs

/-- Scanner for `re.sub(r'{d}[ \t]+', d, s)`: `afterD` is true right
after an occurrence of `d` (persisting across the dropped run). -/
def subAfterGo (d : Char) : Bool → Str → Str
  | _, [] => []
  | afterD, c :: cs =>
    if afterD && isST c then subAfterGo d true cs
    else c :: subAfterGo d (c = d) cs

/-- `re.sub(r'{d}[ \t]+', d, s)`. -/
def subAfter (d : Char) (s : Str) : Str := subAfterGo d false s

/-- Scanner for `re.sub(r'[ \t]+', ' ', s)`: `prevST` is true inside a
space/tab run whose first character has already been emitted as `' '`. -/
def collapseGo : Bool → Str → Str
  | _, [] => []
  | prevST, c :: cs =>
    if isST c then
      if prevST then collapseGo true cs else ' ' :: collapseGo true cs
    else c :: collapseGo false cs

/-- `re.sub(r'[ \t]+', ' ', s)`. -/
def collapseST (s : Str) : Str := collapseGo false s

/-- `re.sub(r'^\s*#', '#', line)`. -/
def stripHash (l : Str) : Str :=
  match l.dropWhile pyIsSpace with
  | x :: rest => if x = '#' then '#' :: rest else l
  | [] => l

/-- The `symbols` list of `normalize_spaces`, in source order. -/
def SYMBOLS : List Char :=
  [',', '.', '(', ')', '\x7b', '\x7d', ';', ':',
   '+', '-', '*', '/', '=', '<', '>', '!', '?', '|', '&']

/-- The per-line processing of `normalize_spaces`. -/
def normLine (l : Str) : Str :=
  if isDirLine l then collapseST (stripHash l)
  else collapseST (SYMBOLS.foldl (fun acc d => subAfter d (subBefore d acc)) l)

/-- `normalize_spaces` (lines 72–99). -/
def normalize_spaces (s : Str) : Str :=
  intercalateNl ((splitNl s).map normLine)

example : normalize_spaces (ofStr (r"float x = 1.0 ;") ++ '\n' :: ofStr ("  # define  A   1") ++ '\n' :: ofStr (r"a  +  b")) =
    ofStr (r"float x=1.0;") ++ '\n' :: ofStr (r"# define A 1") ++ '\n' :: ofStr (r"a+b") := by decide
example : normalize_spaces (ofStr (r"a , b ( c )  d")) = ofStr (r"a,b(c)d") := by decide
example : normalize_spaces (normalize_spaces (ofStr (r"a ,  b   cd  { x") ++ '\t' :: ofStr (r"y"))) =
    normalize_spaces (ofStr (r"a ,  b   cd  { x") ++ '\t' :: ofStr (r"y")) := by decide

/-! ## `process_includes`

Source (lines 25–47):
```
def process_includes(shader_content, base_path, included_files=None):
    if included_files is None:
        included_files = set()
    base_path = Path(base_path)
    include_pattern = re.compile(r'^\s*#include\s+"([^"]+)"', re.MULTILINE)
    def replacer(match):
        file_path = (base_path / match.group(1)).resolve()
        if file_path in included_files:
            return ""
        if not file_path.is_file():
            print(f"Include not found: {file_path}", file=sys.stderr)
            return ""
        included_files.add(file_path)
        content = file_path.read_text(encoding="utf-8")
        return process_includes(content, file_path.parent, included_files) + "\n"
    return include_pattern.sub(replacer, shader_content)
```

The file system and path arithmetic are abstracted into an environment:
canonical (resolved, absolute) paths are opaque identifiers, `resolve b r`
is `(b / r).resolve()` for a base directory `b` and the directive's
relative path text `r`, `parent q` is `q.parent`, and `fs` maps the
canonical paths of existing files to their contents (`is_file` is
membership, `read_text` is lookup).

The pattern `^\s*#include\s+"([^"]+)"` (MULTILINE) can match only at the
string start or just after a `'\n'` (the scanner's `atLS` flag, tracked
across skipped match spans as well); `\s*` is a maximal whitespace run
(possibly spanning newlines — shorter runs would put a whitespace
character where `#` is required), `\s+` a maximal nonempty run, and
`([^"]+)` the maximal nonempty run of non-quote characters, which must be
followed by the closing quote.  `re.sub` replaces non-overlapping matches
left to right, threading the mutable `included_files` set through the
replacer calls and the recursion; the replacement text is not rescanned.

`skip` counts characters of a recognised match still to be consumed
without being emitted.  The fuel is a budget on the total number of
scanning steps (characters visited, across all nesting levels); `none`
means the budget ran out.  The source needs no such budget because the
include-set check caps the recursion; correspondingly the theorems below
show the model's results are independent of the fuel once it exceeds the
explicit bound, which is the formal content of termination. -/

/-- The include-resolution environment: existing files (by canonical
path) with their contents, path resolution, and parent directories. -/
structure IncEnv where
  fs : List (Nat × Str)
  resolve : Nat → Str → Nat
  parent : Nat → Nat

/-- Try `\s*#include\s+"([^"]+)"` at the current position, returning the
match length and the captured group. -/
def matchIncludeAt (s : Str) : Option (Nat × Str) :=
  let w1 := s.takeWhile pyIsSpace
  let r1 := s.dropWhile pyIsSpace
  if ofStr (r"#include") <+: r1 then
    let r2 := r1.drop 8
    let w2 := r2.takeWhile pyIsSpace
    let r3 := r2.dropWhile pyIsSpace
    if w2 = [] then none
    else
      match r3 with
      | '"' :: r4 =>
        let path := r4.takeWhile (fun c => c ≠ '"')
        if path = [] then none
        else
          match r4.dropWhile (fun c => c ≠ '"') with
          | '"' :: _ => some (w1.length + 8 + w2.length + 1 + path.length + 1, path)
          | _ => none
      | _ => none
  else none

/-- The scanning loop of `include_pattern.sub(replacer, shader_content)`,
with the `replacer` of the source inlined at each match.  Returns the
output text, the final include set (a list of canonical paths, most
recently added first) and the stderr log (the paths reported as not
found, in print order); `none` means the nesting fuel ran out. -/
def incScan (env : IncEnv) :
    Nat → Nat → Str → Bool → Nat → List Nat → List Nat →
    Option (Str × List Nat × List Nat)
  | 0, _, _, _, _, _, _ => none
  | _ + 1, _ + 1, [], _, _, incl, log => some ([], incl, log)
  | n + 1, skip + 1, c :: cs, _, base, incl, log =>
    incScan env n skip cs (c = '\n') base incl log
  | _ + 1, 0, [], _, _, incl, log => some ([], incl, log)
  | n + 1, 0, c :: cs, atLS, base, incl, log =>
    match (if atLS then matchIncludeAt (c :: cs) else none) with
    | some (len, rel) =>
      let q := env.resolve base rel
      if incl.contains q then
        incScan env n (len - 1) cs true base incl log
      else
        match env.fs.lookup q with
        | none => incScan env n (len - 1) cs true base incl (log ++ [q])
        | some content =>
          match incScan env n 0 content true (env.parent q) (q :: incl) log with
          | none => none
          | some (sub, incl2, log2) =>
            match incScan env n (len - 1) cs true base incl2 log2 with
            | none => none
            | some (out, incl3, log3) => some (sub ++ '\n' :: out, incl3, log3)
    | none =>
      match incScan env n 0 cs (c = '\n') base incl log with
      | none => none
      | some (out, incl2, log2) => some (c :: out, incl2, log2)

/-- `process_includes(shader_content, base_path)` with a fresh include
set (the top-level call of the source; `fuel` bounds the include-nesting
depth). -/
def process_includes (env : IncEnv) (fuel : Nat) (shader_content : Str)
    (base : Nat) : Option (Str × List Nat × List Nat) :=
  incScan env fuel 0 shader_content true base [] []

/-! ## `compress_shader`

Source (lines 131–137):
```
def compress_shader(shader_content):
    shader_bytes = shader_content.encode('utf-8')
    uncompressed_size = len(shader_bytes)
    shader_compressed = zlib.compress(shader_bytes)
    header = struct.pack('<Q', uncompressed_size)
    return header + shader_compressed
```

`zlib.compress` is an external library whose contract is that
`zlib.decompress` inverts it; the packager is therefore parametrised by
the compression function, and the round-trip theorem quantifies over any
compressor/decompressor pair satisfying that contract. -/

/-- UTF-8 encoding of one scalar value (`str.encode('utf-8')`,
per code point). -/
def utf8Char (c : Char) : List Nat :=
  let n := c.toNat
  if n < 0x80 then [n]
  else if n < 0x800 then [0xc0 + n / 64, 0x80 + n % 64]
  else if n < 0x10000 then [0xe0 + n / 4096, 0x80 + n / 64 % 64, 0x80 + n % 64]
  else [0xf0 + n / 262144, 0x80 + n / 4096 % 64, 0x80 + n / 64 % 64, 0x80 + n % 64]

/-- `shader_content.encode('utf-8')` as a byte list. -/
def utf8Encode (s : Str) : List Nat :=
  (s.map utf8Char).flatten

/-- `struct.pack('<Q', n)`: 8 bytes, little-endian. -/
def packLE64 (n : Nat) : List Nat :=
  [n % 256, n / 2 ^ 8 % 256, n / 2 ^ 16 % 256, n / 2 ^ 24 % 256,
   n / 2 ^ 32 % 256, n / 2 ^ 40 % 256, n / 2 ^ 48 % 256, n / 2 ^ 56 % 256]

/-- Read back an 8-byte little-endian unsigned integer. -/
def readLE64 (bs : List Nat) : Nat :=
  match bs with
  | [b0, b1, b2, b3, b4, b5, b6, b7] =>
    b0 + b1 * 2 ^ 8 + b2 * 2 ^ 16 + b3 * 2 ^ 24 +
    b4 * 2 ^ 32 + b5 * 2 ^ 40 + b6 * 2 ^ 48 + b7 * 2 ^ 56
  | _ => 0

/-- `compress_shader` (lines 131–137), parametrised by the `zlib.compress`
function. -/
def compress_shader (zlibCompress : List Nat → List Nat) (shader_content : Str) :
    List Nat :=
  let shader_bytes := utf8Encode shader_content
  let uncompressed_size := shader_bytes.length
  let shader_compressed := zlibCompress shader_bytes
  let header := packLE64 uncompressed_size
  header ++ shader_compressed

/-! ## `main`

Source (lines 139–162): after argument parsing,
```
    if args.compress and not args.output_file:
        sys.exit("Error: Cannot output compressed data to stdout. ...")
    formatted_shader = process_shader(args.shader_path)
    if args.compress:
        formatted_shader = compress_shader(formatted_shader)
    try:
        if args.output_file: ... f.write(formatted_shader)
        else: print(formatted_shader, end="")
    except OSError as e:
        sys.exit(f"Error writing to output: {e}")
```
and `process_shader` (lines 109–129) reads the input file (exiting with
code 1 when it is missing) and runs the five text passes in order.

The model makes the I/O explicit: `MainEff` records each performed
effect in order, and the outcome carries the exit status.  `sys.exit`
with a string message prints the message to stderr and exits with
status 1. -/

/-- Observable effects of `main`, in program order. -/
inductive MainEff where
  | readInput (path : Nat) : MainEff
  | transformed : MainEff
  | wroteFile : MainEff
  | wroteStdout : MainEff
deriving DecidableEq

/-- Outcome of `main`: normal completion or `sys.exit` with a message
and a nonzero status. -/
inductive MainOutcome where
  | ok (output : List Nat) : MainOutcome
  | exited (status : Nat) (message : Str) : MainOutcome
  | fuelOut : MainOutcome
deriving DecidableEq

/-- Parsed command-line arguments (`argparse` result): the input path
(already resolved to a canonical path id), the optional output file, and
the compress flag. -/
structure Args where
  shader_path : Nat
  output_file : Option (List Char)
  compress : Bool

/-- The five text passes of `process_shader` after the file is read
(lines 123–127). -/
def processPasses (env : IncEnv) (fuel : Nat) (content : Str) (base : Nat) :
    Option Str :=
  match process_includes env fuel content base with
  | none => none
  | some (included, _, _) =>
    some (optimize_float_literals (normalize_spaces (remove_newlines (remove_comments included))))

/-- `main` (lines 139–162) with `process_shader` (lines 109–129) inlined:
returns the effects performed, in order, and the outcome. -/
def mainModel (env : IncEnv) (fuel : Nat) (args : Args) :
    List MainEff × MainOutcome :=
  if args.compress && args.output_file.isNone then
    ([], MainOutcome.exited 1
      (ofStr (r"Error: Cannot output compressed data to stdout. Please specify an output file.")))
  else
    match env.fs.lookup args.shader_path with
    | none =>
      ([MainEff.readInput args.shader_path], MainOutcome.exited 1
        (ofStr (r"Error: File not found: ") ++ []))
    | some content =>
      match processPasses env fuel content (env.parent args.shader_path) with
      | none => ([MainEff.readInput args.shader_path], MainOutcome.fuelOut)
      | some formatted =>
        let payload :=
          if args.compress then compress_shader id formatted else utf8Encode formatted
        ([MainEff.readInput args.shader_path, MainEff.transformed,
          if args.output_file.isSome then MainEff.wroteFile else MainEff.wroteStdout],
         MainOutcome.ok payload)

/-! ## Claim C1: the literal optimizer on the five spec inputs -/

/-- Counterexample to claim C1: on input `0.0` the literal optimizer does
not leave the text unchanged — the first rewriting rule
(`\b(\d+)\.0+(?!\d)`) matches `0.0` (digit group `0`, one fractional
zero, no digit after it) and produces `0.`, so the claimed output `0.0`
is wrong. -/
theorem c1_zero_literal_counterexample :
    optimize_float_literals (ofStr (r"0.0")) = ofStr (r"0.") ∧
    optimize_float_literals (ofStr (r"0.0")) ≠ ofStr (r"0.0") := by
  constructor
  · decide
  · decide

/-- Claim C1 (amended): the literal optimizer, applied once to each of
these exact inputs, produces `1.000 → 1.`, `0.5 → .5`, `0.0 → 0.`
(the all-zero fraction is shortened by the first rule, not left
unchanged), `10.00 → 10.` and `0.50 → .50`. -/
theorem c1_literal_rules :
    optimize_float_literals (ofStr (r"1.000")) = ofStr (r"1.") ∧
    optimize_float_literals (ofStr (r"0.5")) = ofStr (r".5") ∧
    optimize_float_literals (ofStr (r"0.0")) = ofStr (r"0.") ∧
    optimize_float_literals (ofStr (r"10.00")) = ofStr (r"10.") ∧
    optimize_float_literals (ofStr (r"0.50")) = ofStr (r".50") := by
  refine ⟨?_, ?_, ?_, ?_, ?_⟩ <;> decide

/-! ## Claim C8: the comment stripper -/

/-- Claim C8: `remove_comments` is the line-comment pass applied to the
result of the block-comment pass (in that order), where the block pass
removes every `/*...*/` across newlines with the first closing `*/`
winning (`a/*x\ny*/b*/c → ab*/c`), and the line pass removes `//...` up
to the end of the line or of the text (`a//b\nc//d → a\nc`).  The input
`x///*\n*/y` distinguishes the order: the block comment `/*\n*/` is
removed first, creating the line comment `//y` which the second pass then
removes entirely. -/
theorem c8_remove_comments_contract :
    (∀ s, remove_comments s = rmLineGo CommentSt.norm (rmBlockF s.length s)) ∧
    remove_comments (ofStr (r"a/*x") ++ '\n' :: ofStr (r"y*/b*/c")) = ofStr (r"ab*/c") ∧
    remove_comments (ofStr (r"a/*b*/c/*d*/e")) = ofStr (r"ace") ∧
    remove_comments (ofStr (r"a//b") ++ '\n' :: ofStr (r"c//d")) = ['a', '\n', 'c'] ∧
    remove_comments (ofStr (r"a//b")) = ofStr (r"a") ∧
    remove_comments (ofStr (r"x///*") ++ '\n' :: ofStr (r"*/y")) = ofStr (r"x") := by
  exact ⟨fun s => rfl, by decide, by decide, by decide, by decide, by decide⟩

/-! ## Claim C5: round-trip packaging -/

/-- 8-byte little-endian round trip below `2^64`. -/
theorem readLE64_packLE64 (n : Nat) (h : n < 2 ^ 64) :
    readLE64 (packLE64 n) = n := by
  simp only [readLE64, packLE64]
  omega

/-- The header has 8 bytes. -/
theorem packLE64_length (n : Nat) : (packLE64 n).length = 8 := rfl

/-- Claim C5: for any text `T` and any compressor/decompressor pair
satisfying the zlib round-trip contract, the packager output is an
8-byte little-endian header equal to the byte length of the UTF-8
encoding of `T` followed by the compressed encoding, and decompressing
the bytes after the header and reading exactly header-many bytes
reproduces the UTF-8 encoding of `T`. -/
theorem c5_package_roundtrip (zlibCompress zlibDecompress : List Nat → List Nat)
    (hinv : ∀ bs, zlibDecompress (zlibCompress bs) = bs) (T : Str)
    (hlen : (utf8Encode T).length < 2 ^ 64) :
    readLE64 ((compress_shader zlibCompress T).take 8) = (utf8Encode T).length ∧
    ((zlibDecompress ((compress_shader zlibCompress T).drop 8)).take
      (readLE64 ((compress_shader zlibCompress T).take 8))) = utf8Encode T := by
  have htake : (compress_shader zlibCompress T).take 8 = packLE64 (utf8Encode T).length := by
    have h8 : (8 : Nat) = (packLE64 (utf8Encode T).length).length := (packLE64_length _).symm
    rw [compress_shader, h8, List.take_left]
  have hdrop : (compress_shader zlibCompress T).drop 8 = zlibCompress (utf8Encode T) := by
    have h8 : (8 : Nat) = (packLE64 (utf8Encode T).length).length := (packLE64_length _).symm
    rw [compress_shader, h8, List.drop_left]
  have hhd : readLE64 ((compress_shader zlibCompress T).take 8) = (utf8Encode T).length := by
    rw [htake, readLE64_packLE64 _ hlen]
  refine ⟨hhd, ?_⟩
  rw [hhd, hdrop, hinv, List.take_length]

/-- Witness for C5 at `T = "ab"` with the identity codec. -/
theorem c5_package_roundtrip_witness :
    readLE64 ((compress_shader id (ofStr (r"ab"))).take 8) = (utf8Encode (ofStr (r"ab"))).length ∧
    ((id ((compress_shader id (ofStr (r"ab"))).drop 8)).take
      (readLE64 ((compress_shader id (ofStr (r"ab"))).take 8))) = utf8Encode (ofStr (r"ab")) :=
  c5_package_roundtrip id id (fun _ => rfl) (ofStr (r"ab")) (by decide)

/-! ## Claim C7: compress flag without an output file -/

/-- Claim C7: when the compress flag is set and no output file is given,
`main` exits with status 1 and the diagnostic message before performing
any effect: no file is read and no transformation stage runs (the effect
trace is empty). -/
theorem c7_compress_needs_output (env : IncEnv) (fuel : Nat) (args : Args)
    (hc : args.compress = true) (ho : args.output_file = none) :
    mainModel env fuel args = ([], MainOutcome.exited 1
      (ofStr (r"Error: Cannot output compressed data to stdout. Please specify an output file."))) := by
  simp [mainModel, hc, ho]

/-- A concrete environment with no files (for witnesses). -/
def envEmpty : IncEnv where
  fs := []
  resolve := fun b _ => b
  parent := fun q => q

/-- Witness for C7 at a concrete invocation. -/
theorem c7_compress_needs_output_witness :
    mainModel envEmpty 0 ⟨0, none, true⟩ = ([], MainOutcome.exited 1
      (ofStr (r"Error: Cannot output compressed data to stdout. Please specify an output file."))) :=
  c7_compress_needs_output envEmpty 0 ⟨0, none, true⟩ rfl rfl

/-! ## Scanner lemmas for `process_includes` -/

/-- `noIncFrom atLS s`: scanning `s` (with `atLS` the line-start status
of the first position) finds no occurrence of the include pattern. -/
def noIncFrom : Bool → Str → Bool
  | _, [] => true
  | atLS, c :: cs =>
    (if atLS then (matchIncludeAt (c :: cs)).isNone else true) && noIncFrom (c = '\n') cs

/-- Line-start status after consuming the characters of `a`. -/
def atLSAfter (atLS : Bool) : Str → Bool
  | [] => atLS
  | c :: cs => atLSAfter (c = '\n') cs

theorem atLSAfter_append (b : Bool) (a1 a2 : Str) :
    atLSAfter b (a1 ++ a2) = atLSAfter (atLSAfter b a1) a2 := by
  induction a1 generalizing b with
  | nil => rfl
  | cons c cs ih => simp [atLSAfter, ih]

/-- On match-free text the scanner is the identity and changes no state
(for any fuel beyond the text's length). -/
theorem incScan_noMatch (env : IncEnv) (s : Str) :
    ∀ (atLS : Bool), noIncFrom atLS s = true →
    ∀ (fuel : Nat), s.length < fuel →
    ∀ (base : Nat) (incl log : List Nat),
    incScan env fuel 0 s atLS base incl log = some (s, incl, log) := by
  induction s with
  | nil =>
    intro atLS _ fuel hf base incl log
    match fuel, hf with
    | n + 1, _ => rfl
  | cons c cs ih =>
    intro atLS h fuel hf base incl log
    simp only [noIncFrom, Bool.and_eq_true] at h
    match fuel, hf with
    | n + 1, hf2 =>
      have hn : cs.length < n := by
        have h3 : cs.length + 1 < n + 1 := by simpa using hf2
        omega
      have hnone : (if atLS then matchIncludeAt (c :: cs) else none) = none := by
        cases atLS with
        | false => rfl
        | true =>
          simp only [if_pos] at h ⊢
          exact Option.isNone_iff_eq_none.mp h.1
      show (match (if atLS then matchIncludeAt (c :: cs) else none) with
        | some (len, rel) =>
          let q := env.resolve base rel
          if incl.contains q then
            incScan env n (len - 1) cs true base incl log
          else
            match env.fs.lookup q with
            | none => incScan env n (len - 1) cs true base incl (log ++ [q])
            | some content =>
              match incScan env n 0 content true (env.parent q) (q :: incl) log with
              | none => none
              | some (sub, incl2, log2) =>
                match incScan env n (len - 1) cs true base incl2 log2 with
                | none => none
                | some (out, incl3, log3) => some (sub ++ '\n' :: out, incl3, log3)
        | none =>
          match incScan env n 0 cs (c = '\n') base incl log with
          | none => none
          | some (out, incl2, log2) => some (c :: out, incl2, log2)) = some (c :: cs, incl, log)
      rw [hnone, ih (c = '\n') h.2 n hn base incl log]

/-- Skipping `a.length` characters consumes exactly `a` (and `a.length`
fuel), updating the line-start flag from the skipped characters. -/
theorem incScan_skip (env : IncEnv) (a : Str) :
    ∀ (b : Str) (fuel : Nat), a.length ≤ fuel →
    ∀ (atLS : Bool) (base : Nat) (incl log : List Nat),
    incScan env fuel a.length (a ++ b) atLS base incl log =
      incScan env (fuel - a.length) 0 b (atLSAfter atLS a) base incl log := by
  induction a with
  | nil => intro b fuel _ atLS base incl log; rfl
  | cons c cs ih =>
    intro b fuel hf atLS base incl log
    match fuel, hf with
    | n + 1, hf2 =>
      have hn : cs.length ≤ n := by
        have h3 : cs.length + 1 ≤ n + 1 := by simpa using hf2
        omega
      show incScan env (n + 1) (cs.length + 1) (c :: (cs ++ b)) atLS base incl log = _
      have hstep : incScan env (n + 1) (cs.length + 1) (c :: (cs ++ b)) atLS base incl log =
          incScan env n cs.length (cs ++ b) (c = '\n') base incl log := rfl
      rw [hstep, ih b n hn (c = '\n') base incl log]
      have h4 : (n + 1) - (cs.length + 1) = n - cs.length := by omega
      rw [List.length_cons, h4]
      rfl

theorem takeWhile_append_all {p : Char → Bool} (a b : Str)
    (ha : ∀ c ∈ a, p c = true) :
    (a ++ b).takeWhile p = a ++ b.takeWhile p := by
  induction a with
  | nil => rfl
  | cons c cs ih =>
    have hc : p c = true := ha c (List.mem_cons_self c cs)
    simp [List.takeWhile_cons, hc, ih fun d hd => ha d (List.mem_cons_of_mem c hd)]

theorem dropWhile_append_all {p : Char → Bool} (a b : Str)
    (ha : ∀ c ∈ a, p c = true) :
    (a ++ b).dropWhile p = b.dropWhile p := by
  induction a with
  | nil => rfl
  | cons c cs ih =>
    have hc : p c = true := ha c (List.mem_cons_self c cs)
    simp [List.dropWhile_cons, hc, ih fun d hd => ha d (List.mem_cons_of_mem c hd)]

/-- The text of an include directive at the very start of a line:
`#include "rel"`. -/
def dirText (rel : Str) : Str := ofStr (r"#include ") ++ '"' :: rel ++ ['"']

theorem dirText_length (rel : Str) : (dirText rel).length = 11 + rel.length := by
  simp [dirText, ofStr]
  omega

/-- The include pattern matches `#include "rel"` at the start, capturing
`rel`, when `rel` is nonempty and quote-free. -/
theorem matchIncludeAt_dirText (rel body : Str)
    (hq : ∀ c ∈ rel, c ≠ '"') (hne : rel ≠ []) :
    matchIncludeAt (dirText rel ++ body) = some (11 + rel.length, rel) := by
  have hsplit : dirText rel ++ body =
      ofStr (r"#include") ++ ' ' :: '"' :: (rel ++ '"' :: body) := by
    simp [dirText, ofStr]
  rw [matchIncludeAt, hsplit]
  have h1 : (ofStr (r"#include") ++ ' ' :: '"' :: (rel ++ '"' :: body)).takeWhile pyIsSpace = [] := by
    rfl
  have h2 : (ofStr (r"#include") ++ ' ' :: '"' :: (rel ++ '"' :: body)).dropWhile pyIsSpace =
      ofStr (r"#include") ++ ' ' :: '"' :: (rel ++ '"' :: body) := by
    rfl
  rw [h1, h2]
  have hpre : ofStr (r"#include") <+: ofStr (r"#include") ++ ' ' :: '"' :: (rel ++ '"' :: body) :=
    ⟨_, rfl⟩
  rw [if_pos hpre]
  have h3 : (ofStr (r"#include") ++ ' ' :: '"' :: (rel ++ '"' :: body)).drop 8 =
      ' ' :: '"' :: (rel ++ '"' :: body) := by
    have : (8 : Nat) = (ofStr (r"#include")).length := rfl
    rw [this, List.drop_left]
  rw [h3]
  have h4 : (' ' :: '"' :: (rel ++ '"' :: body)).takeWhile pyIsSpace = [' '] := rfl
  have h5 : (' ' :: '"' :: (rel ++ '"' :: body)).dropWhile pyIsSpace = '"' :: (rel ++ '"' :: body) := rfl
  have hqb : ∀ c ∈ rel, (fun x => decide ¬x = '"') c = true := by
    intro c hc
    simpa using hq c hc
  have h6 : (rel ++ '"' :: body).takeWhile (fun x => decide ¬x = '"') = rel := by
    rw [takeWhile_append_all rel _ hqb]
    simp [List.takeWhile_cons]
  have h7 : (rel ++ '"' :: body).dropWhile (fun x => decide ¬x = '"') = '"' :: body := by
    rw [dropWhile_append_all rel _ hqb]
    simp [List.dropWhile_cons]
  simp only [h4, h5, h6, h7]
  rw [if_neg hne]
  simp
  omega

/-- `dirText` split at its first character. -/
def dirTail (rel : Str) : Str := ofStr (r"include ") ++ '"' :: rel ++ ['"']

theorem dirText_cons (rel : Str) : dirText rel = '#' :: dirTail rel := rfl

theorem dirTail_length (rel : Str) : (dirTail rel).length = 10 + rel.length := by
  simp [dirTail, ofStr]
  omega

theorem atLSAfter_dirTail (b : Bool) (rel : Str) : atLSAfter b (dirTail rel) = false := by
  have h : dirTail rel = (ofStr (r"include ") ++ '"' :: rel) ++ ['"'] := by
    simp [dirTail]
  rw [h, atLSAfter_append]
  rfl

/-- One scanner step at a recognised match (the source's `replacer`). -/
theorem incScan_match_step (env : IncEnv) (n : Nat) (c : Char) (cs : Str)
    (base : Nat) (incl log : List Nat) (len : Nat) (rel : Str)
    (hm : matchIncludeAt (c :: cs) = some (len, rel)) :
    incScan env (n + 1) 0 (c :: cs) true base incl log =
      (if incl.contains (env.resolve base rel) then
        incScan env n (len - 1) cs true base incl log
      else
        match env.fs.lookup (env.resolve base rel) with
        | none => incScan env n (len - 1) cs true base incl (log ++ [env.resolve base rel])
        | some content =>
          match incScan env n 0 content true (env.parent (env.resolve base rel))
              (env.resolve base rel :: incl) log with
          | none => none
          | some (sub, incl2, log2) =>
            match incScan env n (len - 1) cs true base incl2 log2 with
            | none => none
            | some (out, incl3, log3) => some (sub ++ '\n' :: out, incl3, log3)) := by
  simp only [incScan, if_pos, hm]

/-- Scanning `#include "rel"` followed by directive-free text when the
resolved path is already in the include set: the directive is replaced by
the empty string and the set and log are unchanged. -/
theorem incScan_dir_present (env : IncEnv) (rel body : Str) (base : Nat)
    (incl log : List Nat)
    (hq : ∀ c ∈ rel, c ≠ '"') (hne : rel ≠ [])
    (hmem : incl.contains (env.resolve base rel) = true)
    (hbody : noIncFrom false body = true) :
    ∀ m, 11 + rel.length + body.length < m →
    incScan env m 0 (dirText rel ++ body) true base incl log =
      some (body, incl, log) := by
  intro m hm
  match m, hm with
  | n + 1, hm2 =>
    have hmatch : matchIncludeAt ('#' :: (dirTail rel ++ body)) = some (11 + rel.length, rel) := by
      have h0 := matchIncludeAt_dirText rel body hq hne
      rw [dirText_cons] at h0
      simpa using h0
    have hsp : dirText rel ++ body = '#' :: (dirTail rel ++ body) := by
      rw [dirText_cons]
      rfl
    rw [hsp, incScan_match_step env n '#' (dirTail rel ++ body) base incl log _ rel hmatch,
      if_pos hmem]
    have hn2 : 10 + rel.length + body.length < n := by
      have h5 : 11 + rel.length + body.length < n + 1 := hm2
      omega
    have hlen : 11 + rel.length - 1 = (dirTail rel).length := by
      rw [dirTail_length]
      omega
    have hle : (dirTail rel).length ≤ n := by
      rw [dirTail_length]
      omega
    rw [hlen, incScan_skip env (dirTail rel) body n hle true base incl log,
      atLSAfter_dirTail]
    exact incScan_noMatch env body false hbody _
      (by rw [dirTail_length]; omega) base incl log

/-! ## Claim C6: missing include files -/

/-- Claim C6: when the resolved path of an include directive is not an
existing file (and was not previously included), the scanner logs that
path on the error stream, substitutes the empty string for the directive
(the output is exactly the remaining text's result), leaves the include
set unchanged, and continues processing the rest of the text. -/
theorem c6_missing_include (env : IncEnv) (rel body : Str) (base : Nat)
    (incl log : List Nat)
    (hq : ∀ c ∈ rel, c ≠ '"') (hne : rel ≠ [])
    (hmem : incl.contains (env.resolve base rel) = false)
    (hnotfound : env.fs.lookup (env.resolve base rel) = none)
    (hbody : noIncFrom false body = true) :
    ∀ fuel, 11 + rel.length + body.length < fuel →
    incScan env fuel 0 (dirText rel ++ body) true base incl log =
      some (body, incl, log ++ [env.resolve base rel]) := by
  intro m hm
  match m, hm with
  | n + 1, hm2 =>
    have hmatch : matchIncludeAt ('#' :: (dirTail rel ++ body)) = some (11 + rel.length, rel) := by
      have h0 := matchIncludeAt_dirText rel body hq hne
      rw [dirText_cons] at h0
      simpa using h0
    have hsp : dirText rel ++ body = '#' :: (dirTail rel ++ body) := by
      rw [dirText_cons]
      rfl
    rw [hsp, incScan_match_step env n '#' (dirTail rel ++ body) base incl log _ rel hmatch,
      hmem]
    rw [if_neg (by decide), hnotfound]
    have hlen : 11 + rel.length - 1 = (dirTail rel).length := by
      rw [dirTail_length]
      omega
    have hle : (dirTail rel).length ≤ n := by
      rw [dirTail_length]
      omega
    rw [hlen, incScan_skip env (dirTail rel) body n hle true base incl _,
      atLSAfter_dirTail]
    exact incScan_noMatch env body false hbody _
      (by rw [dirTail_length]; omega) base incl _

/-- A concrete environment for the C6 witness: no files exist. -/
def envNoFiles : IncEnv where
  fs := []
  resolve := fun _ _ => 7
  parent := fun q => q

/-- Witness for C6: a missing include in a two-line file; path `7` is
logged, the directive becomes empty, the rest is processed. -/
theorem c6_missing_include_witness :
    incScan envNoFiles 50 0 (dirText (ofStr (r"lib.glsl")) ++ '\n' :: ofStr (r"x")) true 3 [] [] =
      some ('\n' :: ofStr (r"x"), [], [7]) :=
  c6_missing_include envNoFiles (ofStr (r"lib.glsl")) ('\n' :: ofStr (r"x")) 3 [] []
    (by decide) (by decide) rfl rfl (by decide) 50 (by decide)

/-! ## Claim C4: include cycle safety -/

/-- Claim C4: a file whose content is `#include "rel"` (resolving to the
file itself) followed by directive-free text terminates and, for every
sufficiently large step budget, produces the same output.  The first
conjunct is the top-level resolution (fresh include set): the body is
inlined once — the nested resolution, in which the path is already
present in the include set, replaces the self-reference by the empty
string (second conjunct, output `body`) — and an extra newline is
appended, giving `body ++ "\n" ++ body`.  No path is ever re-inlined,
no diagnostic is logged, and the include set ends as `{p}`. -/
theorem c4_include_cycle (env : IncEnv) (p : Nat) (rel body : Str)
    (hq : ∀ c ∈ rel, c ≠ '"') (hne : rel ≠ [])
    (hfs : env.fs.lookup p = some (dirText rel ++ body))
    (hres : env.resolve (env.parent p) rel = p)
    (hbody : noIncFrom false body = true) :
    ∀ fuel, 12 + rel.length + body.length < fuel →
    (process_includes env fuel (dirText rel ++ body) (env.parent p) =
      some (body ++ '\n' :: body, [p], []) ∧
     incScan env fuel 0 (dirText rel ++ body) true (env.parent p) [p] [] =
      some (body, [p], [])) := by
  intro m hm
  match m, hm with
  | n + 1, hm2 =>
    have hinner : incScan env (n + 1) 0 (dirText rel ++ body) true (env.parent p) [p] [] =
        some (body, [p], []) := by
      refine incScan_dir_present env rel body (env.parent p) [p] [] hq hne ?_ hbody (n + 1) (by omega)
      rw [hres]
      simp
    refine ⟨?_, hinner⟩
    have hmatch : matchIncludeAt ('#' :: (dirTail rel ++ body)) = some (11 + rel.length, rel) := by
      have h0 := matchIncludeAt_dirText rel body hq hne
      rw [dirText_cons] at h0
      simpa using h0
    have hsp : dirText rel ++ body = '#' :: (dirTail rel ++ body) := by
      rw [dirText_cons]
      rfl
    rw [process_includes, hsp,
      incScan_match_step env n '#' (dirTail rel ++ body) (env.parent p) [] [] _ rel hmatch,
      hres]
    rw [show ([] : List Nat).contains p = false from rfl, if_neg (by decide), hfs]
    have hnested : incScan env n 0 (dirText rel ++ body) true (env.parent p) [p] [] =
        some (body, [p], []) :=
      incScan_dir_present env rel body (env.parent p) [p] [] hq hne
        (by rw [hres]; simp) hbody n (by omega)
    simp only [hnested]
    have hlen : 11 + rel.length - 1 = (dirTail rel).length := by
      rw [dirTail_length]
      omega
    have hle : (dirTail rel).length ≤ n := by
      rw [dirTail_length]
      omega
    rw [hlen, incScan_skip env (dirTail rel) body n hle true (env.parent p) [p] [],
      atLSAfter_dirTail]
    rw [incScan_noMatch env body false hbody _
      (by rw [dirTail_length]; omega) (env.parent p) [p] []]

/-- A concrete environment for the C4 witness: file `0` includes itself. -/
def envSelf : IncEnv where
  fs := [(0, dirText (ofStr (r"a.glsl")) ++ '\n' :: ofStr (r"y"))]
  resolve := fun _ _ => 0
  parent := fun _ => 1

/-- Witness for C4: the self-including file `0` resolves to
`body ++ "\n" ++ body` at the top level and to `body` once the path is
in the include set, for the concrete step budget 60. -/
theorem c4_include_cycle_witness :
    (process_includes envSelf 60 (dirText (ofStr (r"a.glsl")) ++ '\n' :: ofStr (r"y")) 1 =
      some (('\n' :: ofStr (r"y")) ++ '\n' :: '\n' :: ofStr (r"y"), [0], []) ∧
     incScan envSelf 60 0 (dirText (ofStr (r"a.glsl")) ++ '\n' :: ofStr (r"y")) true 1 [0] [] =
      some ('\n' :: ofStr (r"y"), [0], [])) :=
  c4_include_cycle envSelf 0 (ofStr (r"a.glsl")) ('\n' :: ofStr (r"y"))
    (by decide) (by decide) rfl rfl (by decide) 60 (by decide)

/-! ## Character-level facts about the per-line operations -/

theorem isST_pyIsSpace {c : Char} (h : isST c = true) : pyIsSpace c = true := by
  simp only [isST, Bool.or_eq_true, decide_eq_true_eq] at h
  rcases h with h | h <;> subst h <;> decide

theorem mem_subBefore {d : Char} {l : Str} {c : Char} (h : c ∈ subBefore d l) :
    c ∈ l := by
  induction l with
  | nil => simpa [subBefore] using h
  | cons x xs ih =>
    rw [subBefore] at h
    by_cases hx : (isST x && ((xs.dropWhile isST).head? = some d) : Bool)
    · rw [if_pos (by simpa using hx)] at h
      exact List.mem_cons_of_mem x (ih h)
    · rw [if_neg (by simpa using hx)] at h
      rcases List.mem_cons.mp h with h | h
      · exact h ▸ List.mem_cons_self x xs
      · exact List.mem_cons_of_mem x (ih h)

theorem mem_subAfterGo {d : Char} {b : Bool} {l : Str} {c : Char}
    (h : c ∈ subAfterGo d b l) : c ∈ l := by
  induction l generalizing b with
  | nil => simpa [subAfterGo] using h
  | cons x xs ih =>
    rw [subAfterGo] at h
    by_cases hx : (b && isST x : Bool)
    · rw [if_pos (by simpa using hx)] at h
      exact List.mem_cons_of_mem x (ih h)
    · rw [if_neg (by simpa using hx)] at h
      rcases List.mem_cons.mp h with h | h
      · exact h ▸ List.mem_cons_self x xs
      · exact List.mem_cons_of_mem x (ih h)

theorem mem_collapseGo {b : Bool} {l : Str} {c : Char}
    (h : c ∈ collapseGo b l) : c ∈ l ∨ c = ' ' := by
  induction l generalizing b with
  | nil => simp [collapseGo] at h
  | cons x xs ih =>
    rw [collapseGo] at h
    by_cases hx : isST x = true
    · rw [if_pos hx] at h
      by_cases hb : b = true
      · rw [if_pos hb] at h
        rcases ih h with h | h
        · exact Or.inl (List.mem_cons_of_mem x h)
        · exact Or.inr h
      · rw [if_neg hb] at h
        rcases List.mem_cons.mp h with h | h
        · exact Or.inr h
        · rcases ih h with h | h
          · exact Or.inl (List.mem_cons_of_mem x h)
          · exact Or.inr h
    · rw [if_neg hx] at h
      rcases List.mem_cons.mp h with h | h
      · exact Or.inl (h ▸ List.mem_cons_self x xs)
      · rcases ih h with h | h
        · exact Or.inl (List.mem_cons_of_mem x h)
        · exact Or.inr h

theorem mem_stripHash {l : Str} {c : Char} (h : c ∈ stripHash l) : c ∈ l := by
  rw [stripHash] at h
  rcases hdw : l.dropWhile pyIsSpace with _ | ⟨x, rest⟩
  · rw [hdw] at h
    exact h
  · rw [hdw] at h
    change c ∈ (if x = '#' then '#' :: rest else l) at h
    by_cases hx : x = '#'
    · rw [if_pos hx] at h
      subst hx
      exact (List.dropWhile_sublist pyIsSpace (l := l)).mem (hdw ▸ h)
    · rw [if_neg hx] at h
      exact h

theorem mem_symFold {c : Char} :
    ∀ (syms : List Char) (l : Str),
      c ∈ syms.foldl (fun acc d => subAfter d (subBefore d acc)) l → c ∈ l := by
  intro syms
  induction syms with
  | nil => intro l h; simpa using h
  | cons d ds ih =>
    intro l h
    have h1 := ih (subAfter d (subBefore d l)) h
    exact mem_subBefore (mem_subAfterGo h1)

theorem mem_normLine {l : Str} {c : Char} (h : c ∈ normLine l) : c ∈ l ∨ c = ' ' := by
  rw [normLine] at h
  by_cases hd : isDirLine l = true
  · rw [if_pos hd] at h
    rcases mem_collapseGo h with h | h
    · exact Or.inl (mem_stripHash h)
    · exact Or.inr h
  · rw [if_neg hd] at h
    rcases mem_collapseGo h with h | h
    · exact Or.inl (mem_symFold SYMBOLS l h)
    · exact Or.inr h

theorem normLine_nlFree {l : Str} (h : '\n' ∉ l) : '\n' ∉ normLine l := by
  intro hmem
  rcases mem_normLine hmem with h2 | h2
  · exact h h2
  · exact absurd h2 (by decide)

/-! ## Lemmas on `splitNl` and `intercalateNl` -/

theorem splitNl_ne_nil (s : Str) : splitNl s ≠ [] := by
  induction s with
  | nil => simp [splitNl]
  | cons c cs ih =>
    rw [splitNl]
    by_cases hc : c = '\n'
    · simp [hc]
    · rw [if_neg hc]
      rcases h : splitNl cs with _ | ⟨l, ls⟩
      · exact absurd h ih
      · simp [consFst]

theorem splitNl_length (s : Str) : (splitNl s).length = s.count '\n' + 1 := by
  induction s with
  | nil => rfl
  | cons c cs ih =>
    rw [splitNl]
    by_cases hc : c = '\n'
    · subst hc
      simp [List.count_cons, ih]
    · rw [if_neg hc]
      rcases h : splitNl cs with _ | ⟨l, ls⟩
      · exact absurd h (splitNl_ne_nil cs)
      · have : (c :: cs).count '\n' = cs.count '\n' := by
          simp [List.count_cons, hc]
        rw [this, consFst, ← ih, h]
        rfl

theorem mem_splitNl_nlFree (s : Str) : ∀ l ∈ splitNl s, '\n' ∉ l := by
  induction s with
  | nil => intro l hl; simp [splitNl] at hl; simp [hl]
  | cons c cs ih =>
    intro l hl
    rw [splitNl] at hl
    by_cases hc : c = '\n'
    · rw [if_pos hc] at hl
      rcases List.mem_cons.mp hl with h | h
      · simp [h]
      · exact ih l h
    · rw [if_neg hc] at hl
      rcases h : splitNl cs with _ | ⟨x, xs⟩
      · exact absurd h (splitNl_ne_nil cs)
      · rw [h, consFst] at hl
        rcases List.mem_cons.mp hl with h2 | h2
        · subst h2
          intro hmem
          rcases List.mem_cons.mp hmem with h3 | h3
          · exact hc h3.symm
          · exact ih x (h ▸ List.mem_cons_self x xs) h3
        · exact ih l (h ▸ List.mem_cons_of_mem x h2)

theorem intercalateNl_count (ls : List Str) (hne : ls ≠ [])
    (hfree : ∀ l ∈ ls, '\n' ∉ l) :
    (intercalateNl ls).count '\n' = ls.length - 1 := by
  induction ls with
  | nil => exact absurd rfl hne
  | cons l ls ih =>
    rcases ls with _ | ⟨l2, rest⟩
    · have h2 : l.count '\n' = 0 :=
        List.count_eq_zero.mpr (hfree l (List.mem_cons_self l _))
      simpa [intercalateNl] using h2
    · rw [intercalateNl]
      have h2 : l.count '\n' = 0 :=
        List.count_eq_zero.mpr (hfree l (List.mem_cons_self l _))
      have h3 : ('\n' :: intercalateNl (l2 :: rest)).count '\n' =
          (intercalateNl (l2 :: rest)).count '\n' + 1 := by
        simp [List.count_cons]
      rw [List.count_append, h2, h3,
        ih (List.cons_ne_nil l2 rest) fun x hx => hfree x (List.mem_cons_of_mem l hx)]
      · simp
      · exact fun h => List.noConfusion h

/-! ## Claim C9: `normalize_spaces` preserves the line structure -/

/-- Claim C9: the symbol-normalization stage preserves the number of
newline characters of every input (it splits on `'\n'`, never creates or
destroys one inside a line, and rejoins with `'\n'`). -/
theorem c9_normalize_preserves_newlines (s : Str) :
    (normalize_spaces s).count '\n' = s.count '\n' := by
  rw [normalize_spaces]
  have hne : (splitNl s).map normLine ≠ [] := by
    simp [splitNl_ne_nil s]
  have hfree : ∀ l ∈ (splitNl s).map normLine, '\n' ∉ l := by
    intro l hl
    rcases List.mem_map.mp hl with ⟨x, hx, rfl⟩
    exact normLine_nlFree (mem_splitNl_nlFree s x hx)
  rw [intercalateNl_count _ hne hfree, List.length_map, splitNl_length]
  simp

/-! ## The line groups of `remove_newlines` -/

theorem splitNl_of_nlFree (a : Str) (h : '\n' ∉ a) : splitNl a = [a] := by
  induction a with
  | nil => rfl
  | cons c cs ih =>
    rw [splitNl, if_neg (by intro hc; exact h (hc ▸ List.mem_cons_self c cs)),
      ih (fun hm => h (List.mem_cons_of_mem c hm)), consFst]

theorem splitNl_append_nl (a r : Str) (h : '\n' ∉ a) :
    splitNl (a ++ '\n' :: r) = a :: splitNl r := by
  induction a with
  | nil => simp [splitNl]
  | cons c cs ih =>
    have hc : ¬(c = '\n') := fun hc => h (hc ▸ List.mem_cons_self c cs)
    rw [List.cons_append, splitNl, if_neg hc,
      ih (fun hm => h (List.mem_cons_of_mem c hm)), consFst]

/-- The output lines produced by the `remove_newlines` loop: `acc` is the
output line currently being assembled, `prevDir` the directive flag of
the last input line added to it. -/
def rnGroupsGo (acc : Str) (prevDir : Bool) : List Str → List Str
  | [] => [acc]
  | l :: ls =>
    let nextDir := match ls.head? with | some n2 => isDirLine n2 | none => false
    if isDirLine l || prevDir || nextDir then
      acc :: rnGroupsGo l (isDirLine l) ls
    else
      rnGroupsGo (acc ++ l) (isDirLine l) ls

/-- The output lines of `remove_newlines` as a function of the kept
input lines. -/
def rnGroups : List Str → List Str
  | [] => []
  | l :: ls => rnGroupsGo l (isDirLine l) ls

/-- The join/split correspondence: splitting the output of the
`remove_newlines` loop at newlines recovers exactly the groups. -/
theorem splitNl_rnRest (ls : List Str) :
    ∀ (acc : Str) (prevDir : Bool), '\n' ∉ acc → (∀ l ∈ ls, '\n' ∉ l) →
    splitNl (acc ++ rnRest prevDir ls) = rnGroupsGo acc prevDir ls := by
  induction ls with
  | nil =>
    intro acc prevDir hacc _
    rw [rnRest, List.append_nil, rnGroupsGo, splitNl_of_nlFree acc hacc]
  | cons l ls ih =>
    intro acc prevDir hacc hls
    simp only [rnRest, rnGroupsGo]
    have hl : '\n' ∉ l := hls l (List.mem_cons_self l ls)
    have hls2 : ∀ m ∈ ls, '\n' ∉ m := fun m hm => hls m (List.mem_cons_of_mem l hm)
    by_cases hsep : (isDirLine l || prevDir ||
        (match ls.head? with | some n2 => isDirLine n2 | none => false) : Bool)
    · simp only [if_pos hsep]
      have hshape : acc ++ ('\n' :: l ++ rnRest (isDirLine l) ls) =
          acc ++ '\n' :: (l ++ rnRest (isDirLine l) ls) := by simp
      rw [hshape, splitNl_append_nl _ _ hacc, ih l (isDirLine l) hl hls2]
    · simp only [if_neg hsep]
      have hshape : acc ++ (l ++ rnRest (isDirLine l) ls) =
          (acc ++ l) ++ rnRest (isDirLine l) ls := by simp
      rw [hshape]
      exact ih (acc ++ l) (isDirLine l) (by simp [hacc, hl]) hls2

theorem splitlines_cons (c : Char) (cs : Str)
    (hno : ¬(c = '\x0d' ∧ cs.head? = some '\n')) :
    splitlines (c :: cs) =
      if isLineBoundary c then [] :: splitlines cs else consFst c (splitlines cs) := by
  rw [splitlines.eq_def]
  split
  · rename_i heq
    exact absurd heq (by simp)
  · rename_i x cs2 heq
    rw [List.cons.injEq] at heq
    exact absurd ⟨heq.1, by rw [heq.2]; rfl⟩ hno
  · rename_i x c2 cs2 hno2 heq
    rw [List.cons.injEq] at heq
    rw [heq.1, heq.2]

theorem mem_splitlines_boundaryFree (s : Str) :
    ∀ l ∈ splitlines s, ∀ c ∈ l, isLineBoundary c = false := by
  induction s using splitlines.induct with
  | case1 =>
    intro l hl
    simp [splitlines] at hl
  | case2 cs2 ih =>
    intro l hl
    rw [splitlines] at hl
    rcases List.mem_cons.mp hl with h | h
    · subst h
      intro c hc
      simp at hc
    · exact ih l h
  | case3 c cs hno hb ih =>
    intro l hl
    have hno2 : ¬(c = '\x0d' ∧ cs.head? = some '\n') := by
      rintro ⟨h1, h2⟩
      rcases cs with _ | ⟨c2, cs2⟩
      · simp at h2
      · simp at h2
        exact hno cs2 h1 (by rw [h2])
    rw [splitlines_cons c cs hno2, if_pos hb] at hl
    rcases List.mem_cons.mp hl with h | h
    · subst h
      intro d hd
      simp at hd
    · exact ih l h
  | case4 c cs hno hb ih =>
    intro l hl
    have hno2 : ¬(c = '\x0d' ∧ cs.head? = some '\n') := by
      rintro ⟨h1, h2⟩
      rcases cs with _ | ⟨c2, cs2⟩
      · simp at h2
      · simp at h2
        exact hno cs2 h1 (by rw [h2])
    rw [splitlines_cons c cs hno2, if_neg hb] at hl
    rcases hsp : splitlines cs with _ | ⟨x, xs⟩
    · rw [hsp, consFst] at hl
      rcases List.mem_cons.mp hl with h | h
      · subst h
        intro d hd
        rcases List.mem_cons.mp hd with h2 | h2
        · rw [h2]
          simpa using hb
        · simp at h2
      · simp at h
    · rw [hsp, consFst] at hl
      rcases List.mem_cons.mp hl with h | h
      · subst h
        intro d hd
        rcases List.mem_cons.mp hd with h2 | h2
        · rw [h2]
          simpa using hb
        · exact ih x (hsp ▸ List.mem_cons_self x xs) d h2
      · exact ih l (hsp ▸ List.mem_cons_of_mem x h)

theorem pyStrip_eq_nil_iff (l : Str) :
    pyStrip l = [] ↔ ∀ c ∈ l, pyIsSpace c = true := by
  rw [pyStrip, List.reverse_eq_nil_iff, List.dropWhile_eq_nil_iff]
  constructor
  · intro h c hc
    rcases List.mem_append.mp
        ((List.takeWhile_append_dropWhile (p := pyIsSpace) (l := l)) ▸ hc) with h2 | h2
    · exact List.mem_takeWhile_imp h2
    · exact h c (List.mem_reverse.mpr h2)
  · intro h c hc
    exact h c ((List.dropWhile_sublist pyIsSpace).mem (List.mem_reverse.mp hc))

theorem keptLines_nlFree (s : Str) : ∀ l ∈ keptLines s, '\n' ∉ l := by
  intro l hl hmem
  have hb := mem_splitlines_boundaryFree s l (List.mem_of_mem_filter hl) '\n' hmem
  exact absurd hb (by decide)

theorem keptLines_nonBlank (s : Str) :
    ∀ l ∈ keptLines s, ∃ c ∈ l, pyIsSpace c = false := by
  intro l hl
  have hne := List.of_mem_filter hl
  simp only [decide_eq_true_eq] at hne
  by_contra hall
  push_neg at hall
  refine hne ((pyStrip_eq_nil_iff l).mpr ?_)
  intro c hc
  have := hall c hc
  simpa using this

theorem rnGroupsGo_nonBlank (ls : List Str) :
    ∀ (acc : Str) (p : Bool), (∃ c ∈ acc, pyIsSpace c = false) →
    (∀ l ∈ ls, ∃ c ∈ l, pyIsSpace c = false) →
    ∀ g ∈ rnGroupsGo acc p ls, ∃ c ∈ g, pyIsSpace c = false := by
  induction ls with
  | nil =>
    intro acc p hacc _ g hg
    rw [rnGroupsGo] at hg
    rcases List.mem_cons.mp hg with h | h
    · exact h ▸ hacc
    · simp at h
  | cons l ls ih =>
    intro acc p hacc hls g hg
    rw [rnGroupsGo] at hg
    have hl := hls l (List.mem_cons_self l ls)
    have hls2 : ∀ m ∈ ls, ∃ c ∈ m, pyIsSpace c = false :=
      fun m hm => hls m (List.mem_cons_of_mem l hm)
    by_cases hsep : (isDirLine l || p ||
        (match ls.head? with | some n2 => isDirLine n2 | none => false) : Bool)
    · rw [if_pos hsep] at hg
      rcases List.mem_cons.mp hg with h | h
      · exact h ▸ hacc
      · exact ih l (isDirLine l) hl hls2 g h
    · rw [if_neg hsep] at hg
      refine ih (acc ++ l) (isDirLine l) ?_ hls2 g hg
      rcases hacc with ⟨c, hc, hcs⟩
      exact ⟨c, List.mem_append_left l hc, hcs⟩

theorem rnGroupsGo_nlFree (ls : List Str) :
    ∀ (acc : Str) (p : Bool), '\n' ∉ acc → (∀ l ∈ ls, '\n' ∉ l) →
    ∀ g ∈ rnGroupsGo acc p ls, '\n' ∉ g := by
  induction ls with
  | nil =>
    intro acc p hacc _ g hg
    rw [rnGroupsGo] at hg
    rcases List.mem_cons.mp hg with h | h
    · exact h ▸ hacc
    · simp at h
  | cons l ls ih =>
    intro acc p hacc hls g hg
    rw [rnGroupsGo] at hg
    have hl := hls l (List.mem_cons_self l ls)
    have hls2 : ∀ m ∈ ls, '\n' ∉ m := fun m hm => hls m (List.mem_cons_of_mem l hm)
    by_cases hsep : (isDirLine l || p ||
        (match ls.head? with | some n2 => isDirLine n2 | none => false) : Bool)
    · rw [if_pos hsep] at hg
      rcases List.mem_cons.mp hg with h | h
      · exact h ▸ hacc
      · exact ih l (isDirLine l) hl hls2 g h
    · rw [if_neg hsep] at hg
      refine ih (acc ++ l) (isDirLine l) ?_ hls2 g hg
      intro hmem
      rcases List.mem_append.mp hmem with h | h
      · exact hacc h
      · exact hl h

/-! ## No blank output lines: `noTwoNl` -/

/-- No two consecutive newline characters. -/
def noTwoNl : Str → Bool
  | [] => true
  | [_] => true
  | a :: b :: r => !(a = '\n' && b = '\n') && noTwoNl (b :: r)

theorem noTwoNl_cons (c : Char) (t : Str)
    (hc : c ≠ '\n' ∨ t.head? ≠ some '\n') (ht : noTwoNl t = true) :
    noTwoNl (c :: t) = true := by
  rcases t with _ | ⟨b, r⟩
  · rfl
  · rw [noTwoNl]
    simp only [Bool.and_eq_true, Bool.not_eq_true']
    refine ⟨?_, ht⟩
    rcases hc with h | h
    · simp [h]
    · simp at h
      simp [h]

theorem noTwoNl_append (g t : Str) (hg : '\n' ∉ g) (ht : noTwoNl t = true) :
    noTwoNl (g ++ t) = true := by
  induction g with
  | nil => simpa using ht
  | cons c g' ih =>
    rw [List.cons_append]
    refine noTwoNl_cons c (g' ++ t) (Or.inl ?_) (ih fun hm => hg (List.mem_cons_of_mem c hm))
    intro hc
    exact hg (hc ▸ List.mem_cons_self c g')

theorem intercalateNl_head (g : Str) (gs : List Str) (hg : g ≠ []) :
    (intercalateNl (g :: gs)).head? = g.head? := by
  rcases gs with _ | ⟨g2, rest⟩
  · rfl
  · rw [intercalateNl]
    · rcases g with _ | ⟨c, g'⟩
      · exact absurd rfl hg
      · rfl
    · exact fun h => List.noConfusion h

theorem noTwoNl_intercalateNl (gs : List Str)
    (h : ∀ g ∈ gs, g ≠ [] ∧ '\n' ∉ g) :
    noTwoNl (intercalateNl gs) = true := by
  induction gs with
  | nil => rfl
  | cons g gs ih =>
    rcases gs with _ | ⟨g2, rest⟩
    · rw [intercalateNl]
      have h2 := noTwoNl_append g [] (h g (List.mem_cons_self g _)).2 rfl
      simpa using h2
    · rw [intercalateNl]
      case cons.cons.x_1 => exact fun h => List.noConfusion h
      refine noTwoNl_append g _ (h g (List.mem_cons_self g _)).2 ?_
      refine noTwoNl_cons '\n' _ (Or.inr ?_) (ih fun x hx => h x (List.mem_cons_of_mem g hx))
      rw [intercalateNl_head g2 rest (h g2 (List.mem_cons_of_mem g (List.mem_cons_self g2 rest))).1]
      have hg2 := h g2 (List.mem_cons_of_mem g (List.mem_cons_self g2 rest))
      intro hc
      rcases g2 with _ | ⟨c2, g2'⟩
      · exact hg2.1 rfl
      · simp at hc
        exact hg2.2 (hc ▸ List.mem_cons_self c2 g2')

theorem intercalateNl_consFst (c : Char) (L : List Str) (hL : L ≠ []) :
    intercalateNl (consFst c L) = c :: intercalateNl L := by
  rcases L with _ | ⟨l, ls⟩
  · exact absurd rfl hL
  · rw [consFst]
    rcases ls with _ | ⟨l2, rest⟩
    · rfl
    · rfl

theorem intercalateNl_splitNl (t : Str) : intercalateNl (splitNl t) = t := by
  induction t with
  | nil => rfl
  | cons c cs ih =>
    rw [splitNl]
    by_cases hc : c = '\n'
    · rw [if_pos hc]
      rcases hsp : splitNl cs with _ | ⟨x, xs⟩
      · exact absurd hsp (splitNl_ne_nil cs)
      · rw [show ([] :: x :: xs : List Str) = [] :: (x :: xs) from rfl, intercalateNl]
        · rw [hsp] at ih
          rw [ih, hc]
          rfl
        · exact fun h => List.noConfusion h
    · rw [if_neg hc, intercalateNl_consFst c _ (splitNl_ne_nil cs), ih]

/-! ## Claim C10: invariants of the compactor output -/

/-- Claim C10: the output of `remove_newlines` never begins with a
newline, never contains two consecutive newlines, every one of its lines
holds a non-whitespace character (whenever the output is nonempty), and
input whose lines are all blank yields the empty string. -/
theorem c10_compactor_invariants (s : Str) :
    (remove_newlines s).head? ≠ some '\n' ∧
    noTwoNl (remove_newlines s) = true ∧
    (∀ g ∈ splitNl (remove_newlines s), remove_newlines s ≠ [] →
      ∃ c ∈ g, pyIsSpace c = false) ∧
    ((∀ l ∈ splitlines s, pyStrip l = []) → remove_newlines s = []) := by
  rcases hk : keptLines s with _ | ⟨l, ls⟩
  · have hrn : remove_newlines s = [] := by
      rw [remove_newlines, hk]
    refine ⟨by simp [hrn], by simp [hrn, noTwoNl], ?_, fun _ => hrn⟩
    intro g _ hne
    exact absurd hrn hne
  · have hrn : remove_newlines s = l ++ rnRest (isDirLine l) ls := by
      rw [remove_newlines, hk]
    have hnb : ∀ m ∈ l :: ls, ∃ c ∈ m, pyIsSpace c = false := by
      rw [← hk]
      exact keptLines_nonBlank s
    have hnl : ∀ m ∈ l :: ls, '\n' ∉ m := by
      rw [← hk]
      exact keptLines_nlFree s
    have hlnb := hnb l (List.mem_cons_self l ls)
    have hlnl := hnl l (List.mem_cons_self l ls)
    have hls2nb : ∀ m ∈ ls, ∃ c ∈ m, pyIsSpace c = false :=
      fun m hm => hnb m (List.mem_cons_of_mem l hm)
    have hls2nl : ∀ m ∈ ls, '\n' ∉ m := fun m hm => hnl m (List.mem_cons_of_mem l hm)
    have hsplit : splitNl (remove_newlines s) = rnGroupsGo l (isDirLine l) ls := by
      rw [hrn]
      exact splitNl_rnRest ls l (isDirLine l) hlnl hls2nl
    have hgroups_nb := rnGroupsGo_nonBlank ls l (isDirLine l) hlnb hls2nb
    have hgroups_nl := rnGroupsGo_nlFree ls l (isDirLine l) hlnl hls2nl
    refine ⟨?_, ?_, ?_, ?_⟩
    · rcases hlnb with ⟨c, hc, hcs⟩
      rcases l with _ | ⟨c0, l'⟩
      · simp at hc
      · rw [hrn]
        intro hhead
        simp only [List.cons_append, List.head?_cons, Option.some.injEq] at hhead
        exact hnl (c0 :: l') (List.mem_cons_self _ _) (hhead ▸ List.mem_cons_self c0 l')
    · rw [← intercalateNl_splitNl (remove_newlines s), hsplit]
      refine noTwoNl_intercalateNl _ ?_
      intro g hg
      refine ⟨?_, hgroups_nl g hg⟩
      rcases hgroups_nb g hg with ⟨c, hc, _⟩
      exact fun hnil => by simp [hnil] at hc
    · intro g hg _
      rw [hsplit] at hg
      exact hgroups_nb g hg
    · intro hall
      have hmem := List.mem_filter.mp (hk ▸ List.mem_cons_self l ls)
      have := hall l hmem.1
      rw [this] at hmem
      simp at hmem

/-- Witness for C10: the third conjunct at a concrete merged line, and
the fourth at a concrete all-blank input. -/
theorem c10_compactor_invariants_witness :
    (∃ c ∈ ['a', 'b'], pyIsSpace c = false) ∧
    remove_newlines [' ', '\n', '\t'] = [] := by
  refine ⟨(c10_compactor_invariants ['a', '\n', '\n', 'b']).2.2.1 ['a', 'b'] ?_ ?_,
    (c10_compactor_invariants [' ', '\n', '\t']).2.2.2 ?_⟩
  · decide
  · decide
  · decide

/-! ## Claim C3: directive line isolation

`specPiece`/`specJoin` transcribe the SPEC's wording: each kept line `i`
is preceded by a newline separator exactly when `i > 0` and line `i` is a
directive, or line `i-1` is, or line `i+1` is; all other consecutive
lines are concatenated with no separator. -/

/-- From the spec: kept line `i` with its separator. -/
def specPiece (lines : List Str) (i : Nat) : Str :=
  (if 0 < i ∧ (isDirLine (lines.getD i []) = true ∨
      isDirLine (lines.getD (i - 1) []) = true ∨
      (i + 1 < lines.length ∧ isDirLine (lines.getD (i + 1) []) = true)) then ['\n'] else []) ++
  lines.getD i []

/-- From the spec: the joined output of the whitespace compactor. -/
def specJoin (lines : List Str) : Str :=
  ((List.range lines.length).map (specPiece lines)).flatten

theorem rnRest_eq_spec (ls : List Str) :
    ∀ (prev : Str),
    rnRest (isDirLine prev) ls =
      ((List.range ls.length).map (fun i => specPiece (prev :: ls) (i + 1))).flatten := by
  induction ls with
  | nil => intro prev; rfl
  | cons l ls ih =>
    intro prev
    rw [rnRest, List.length_cons, List.range_succ_eq_map, List.map_cons, List.flatten_cons,
      List.map_map]
    have htail : (List.map ((fun i => specPiece (prev :: l :: ls) (i + 1)) ∘ Nat.succ)
        (List.range ls.length)).flatten = rnRest (isDirLine l) ls := by
      rw [ih l]
      congr 1
      apply List.map_congr_left
      intro i _
      show specPiece (prev :: l :: ls) (i + 1 + 1) = specPiece (l :: ls) (i + 1)
      rw [specPiece, specPiece]
      have hiff : (0 < i + 1 + 1 ∧ (isDirLine ((prev :: l :: ls).getD (i + 1 + 1) []) = true ∨
          isDirLine ((prev :: l :: ls).getD (i + 1 + 1 - 1) []) = true ∨
          (i + 1 + 1 + 1 < (prev :: l :: ls).length ∧
            isDirLine ((prev :: l :: ls).getD (i + 1 + 1 + 1) []) = true))) ↔
          (0 < i + 1 ∧ (isDirLine ((l :: ls).getD (i + 1) []) = true ∨
          isDirLine ((l :: ls).getD (i + 1 - 1) []) = true ∨
          (i + 1 + 1 < (l :: ls).length ∧
            isDirLine ((l :: ls).getD (i + 1 + 1) []) = true))) := by
        constructor
        · rintro ⟨-, h⟩
          refine ⟨Nat.succ_pos _, ?_⟩
          rcases h with h | h | ⟨hb, hc⟩
          · exact Or.inl h
          · exact Or.inr (Or.inl h)
          · refine Or.inr (Or.inr ⟨?_, hc⟩)
            simp only [List.length_cons] at hb ⊢
            omega
        · rintro ⟨-, h⟩
          refine ⟨Nat.succ_pos _, ?_⟩
          rcases h with h | h | ⟨hb, hc⟩
          · exact Or.inl h
          · exact Or.inr (Or.inl h)
          · refine Or.inr (Or.inr ⟨?_, hc⟩)
            simp only [List.length_cons] at hb ⊢
            omega
      exact congrArg (· ++ (l :: ls).getD (i + 1) []) (if_congr hiff rfl rfl)
    have hcond : (isDirLine l || isDirLine prev ||
        (match ls.head? with | some n2 => isDirLine n2 | none => false)) = true ↔
        (0 < 1 ∧ (isDirLine ((prev :: l :: ls).getD 1 []) = true ∨
          isDirLine ((prev :: l :: ls).getD 0 []) = true ∨
          (1 + 1 < (prev :: l :: ls).length ∧
            isDirLine ((prev :: l :: ls).getD (1 + 1) []) = true))) := by
      rcases ls with _ | ⟨x, xs⟩ <;> simp [Bool.or_eq_true] <;> tauto
    show (if (isDirLine l || isDirLine prev ||
        (match ls.head? with | some n2 => isDirLine n2 | none => false) : Bool)
        then '\n' :: l else l) ++ rnRest (isDirLine l) ls = _
    by_cases hb : (isDirLine l || isDirLine prev ||
        (match ls.head? with | some n2 => isDirLine n2 | none => false) : Bool)
    · rw [if_pos hb, htail]
      rw [specPiece, if_pos (by
        have h2 := hcond.mp hb
        simpa using h2)]
      rfl
    · rw [if_neg hb, htail]
      rw [specPiece, if_neg (by
        intro hp
        exact hb (hcond.mpr (by simpa using hp)))]
      rfl

theorem dropWhile_append_of_ne_nil {p : Char → Bool} (a b : Str)
    (ha : a.dropWhile p ≠ []) : (a ++ b).dropWhile p = a.dropWhile p ++ b := by
  induction a with
  | nil => exact absurd rfl ha
  | cons c cs ih =>
    rw [List.cons_append, List.dropWhile_cons, List.dropWhile_cons]
    by_cases hp : p c = true
    · rw [if_pos hp, if_pos hp]
      refine ih ?_
      rw [List.dropWhile_cons, if_pos hp] at ha
      exact ha
    · rw [if_neg hp, if_neg hp, List.cons_append]

theorem isDirLine_append (a b : Str) (ha : ∃ c ∈ a, pyIsSpace c = false) :
    isDirLine (a ++ b) = isDirLine a := by
  have hne : a.dropWhile pyIsSpace ≠ [] := by
    rw [Ne, List.dropWhile_eq_nil_iff]
    push_neg
    rcases ha with ⟨c, hc, hcs⟩
    exact ⟨c, hc, by simp [hcs]⟩
  rw [isDirLine, isDirLine, pyLstrip, pyLstrip, dropWhile_append_of_ne_nil a b hne,
    List.head?_append_of_ne_nil _ hne]

/-- Every output line of the `remove_newlines` loop is either a single
directive input line, or a nonempty concatenation of non-directive input
lines; directive lines are never merged with anything. -/
theorem rnGroupsGo_classify (orig : List Str) (ls : List Str) :
    ∀ (acc : Str) (p : Bool),
    (∀ m ∈ ls, m ∈ orig ∧ (∃ c ∈ m, pyIsSpace c = false)) →
    p = isDirLine acc →
    (isDirLine acc = true → acc ∈ orig) →
    (isDirLine acc = false → ∃ run, run ≠ [] ∧
      (∀ m ∈ run, m ∈ orig ∧ isDirLine m = false) ∧ acc = run.flatten) →
    (∃ c ∈ acc, pyIsSpace c = false) →
    ∀ g ∈ rnGroupsGo acc p ls,
      (isDirLine g = true → g ∈ orig) ∧
      (isDirLine g = false → ∃ run, run ≠ [] ∧
        (∀ m ∈ run, m ∈ orig ∧ isDirLine m = false) ∧ g = run.flatten) := by
  induction ls with
  | nil =>
    intro acc p _ hp hdir hnod hnb g hg
    rw [rnGroupsGo] at hg
    rcases List.mem_cons.mp hg with h | h
    · subst h
      exact ⟨hdir, hnod⟩
    · simp at h
  | cons l ls ih =>
    intro acc p hls hp hdir hnod hnb g hg
    rw [rnGroupsGo] at hg
    have hl := hls l (List.mem_cons_self l ls)
    have hls2 : ∀ m ∈ ls, m ∈ orig ∧ (∃ c ∈ m, pyIsSpace c = false) :=
      fun m hm => hls m (List.mem_cons_of_mem l hm)
    by_cases hsep : (isDirLine l || p ||
        (match ls.head? with | some n2 => isDirLine n2 | none => false) : Bool)
    · rw [if_pos hsep] at hg
      rcases List.mem_cons.mp hg with h | h
      · subst h
        exact ⟨hdir, hnod⟩
      · refine ih l (isDirLine l) hls2 rfl (fun _ => hl.1) ?_ hl.2 g h
        intro hndir
        exact ⟨[l], by simp, by simp [hl.1, hndir], by simp⟩
    · rw [if_neg hsep] at hg
      have hparts : isDirLine l = false ∧ p = false := by
        rcases hbl : isDirLine l with _ | _
        · rcases hbp : p with _ | _
          · exact ⟨rfl, rfl⟩
          · exact absurd (by simp [hbl, hbp]) hsep
        · exact absurd (by simp [hbl]) hsep
      have haccdir : isDirLine acc = false := by
        rw [← hp, hparts.2]
      rcases hnod haccdir with ⟨run, hrne, hrprop, hrflat⟩
      refine ih (acc ++ l) (isDirLine l) hls2 ?_ ?_ ?_ ?_ g hg
      · rw [isDirLine_append acc l hnb, haccdir, hparts.1]
      · intro hcontra
        rw [isDirLine_append acc l hnb, haccdir] at hcontra
        exact absurd hcontra (by simp)
      · intro _
        refine ⟨run ++ [l], by simp, ?_, ?_⟩
        · intro m hm
          rcases List.mem_append.mp hm with h | h
          · exact hrprop m h
          · simp at h
            subst h
            exact ⟨hl.1, hparts.1⟩
        · rw [List.flatten_append, ← hrflat]
          simp
      · rcases hnb with ⟨c, hc, hcs⟩
        exact ⟨c, List.mem_append_left l hc, hcs⟩

/-- Claim C3: `remove_newlines` equals the spec's indexed join (a newline
separator precedes a kept line exactly when it or an adjacent kept line
is a directive, all other consecutive lines being concatenated with no
separator), and in the output every line is either a single directive
input line — never joined with any adjacent line — or a nonempty
concatenation of non-directive input lines. -/
theorem c3_directive_isolation (s : Str) :
    remove_newlines s = specJoin (keptLines s) ∧
    (∀ g ∈ splitNl (remove_newlines s), keptLines s ≠ [] →
      (isDirLine g = true → g ∈ keptLines s) ∧
      (isDirLine g = false → ∃ run, run ≠ [] ∧
        (∀ m ∈ run, m ∈ keptLines s ∧ isDirLine m = false) ∧ g = run.flatten)) := by
  rcases hk : keptLines s with _ | ⟨l, ls⟩
  · refine ⟨?_, ?_⟩
    · rw [remove_newlines, hk]
      rfl
    · intro g hg hne
      exact absurd rfl hne
  · have hnb : ∀ m ∈ l :: ls, ∃ c ∈ m, pyIsSpace c = false := by
      rw [← hk]
      exact keptLines_nonBlank s
    have hnl : ∀ m ∈ l :: ls, '\n' ∉ m := by
      rw [← hk]
      exact keptLines_nlFree s
    refine ⟨?_, ?_⟩
    · rw [remove_newlines, hk, specJoin, List.length_cons, List.range_succ_eq_map,
        List.map_cons, List.flatten_cons, List.map_map]
      have h0 : specPiece (l :: ls) 0 = l := by
        rw [specPiece, if_neg (by simp)]
        rfl
      rw [h0]
      show l ++ rnRest (isDirLine l) ls =
        l ++ (List.map (specPiece (l :: ls) ∘ Nat.succ) (List.range ls.length)).flatten
      congr 1
      rw [rnRest_eq_spec ls l]
      rfl
    · intro g hg hne
      have hsplit : splitNl (remove_newlines s) = rnGroupsGo l (isDirLine l) ls := by
        rw [remove_newlines, hk]
        exact splitNl_rnRest ls l (isDirLine l) (hnl l (List.mem_cons_self l ls))
          (fun m hm => hnl m (List.mem_cons_of_mem l hm))
      rw [hsplit] at hg
      have hclass := rnGroupsGo_classify (l :: ls) ls l (isDirLine l)
        (fun m hm => ⟨List.mem_cons_of_mem l hm, hnb m (List.mem_cons_of_mem l hm)⟩)
        rfl (fun _ => List.mem_cons_self l ls)
        (fun hndir => ⟨[l], by simp, by simp [hndir], by simp⟩)
        (hnb l (List.mem_cons_self l ls)) g hg
      exact hclass

/-- Witness for C3: in `a\n#b\nc` the directive line `#b` is an output
line equal to a single kept input line. -/
theorem c3_directive_isolation_witness :
    ofStr (r"#b") ∈ keptLines ('a' :: '\n' :: '#' :: 'b' :: '\n' :: 'c' :: []) :=
  ((c3_directive_isolation ('a' :: '\n' :: '#' :: 'b' :: '\n' :: 'c' :: [])).2
    (ofStr (r"#b")) (by decide) (by decide)).1 (by decide)

/-! ## Normal forms of normalized lines (towards idempotence)

`pairsOK f s` states that every pair of adjacent characters of `s`
satisfies `f`.  The relevant instances: no space/tab immediately before
an occurrence of a symbol `d` (`noBCf`), none immediately after
(`noACf`), and no two adjacent spaces/tabs (`noSTf`). -/

def pairsOK (f : Char → Char → Bool) : Str → Prop
  | [] => True
  | [_] => True
  | a :: b :: r => f a b = true ∧ pairsOK f (b :: r)

/-- Bad pair for `re.sub(r'[ \t]+{d}', d)`: space/tab directly before `d`. -/
def noBCf (d : Char) (a b : Char) : Bool := !(isST a && b = d)

/-- Bad pair for `re.sub(r'{d}[ \t]+', d)`: space/tab directly after `d`. -/
def noACf (d : Char) (a b : Char) : Bool := !(a = d && isST b)

/-- Bad pair for `re.sub(r'[ \t]+', ' ')`: two adjacent spaces/tabs. -/
def noSTf (a b : Char) : Bool := !(isST a && isST b)

theorem pairsOK_tail {f : Char → Char → Bool} {x : Char} {xs : Str}
    (h : pairsOK f (x :: xs)) : pairsOK f xs := by
  rcases xs with _ | ⟨y, ys⟩
  · trivial
  · exact h.2

theorem pairsOK_cons {f : Char → Char → Bool} {x : Char} {xs : Str}
    (hhead : ∀ h, xs.head? = some h → f x h = true) (htail : pairsOK f xs) :
    pairsOK f (x :: xs) := by
  rcases xs with _ | ⟨y, ys⟩
  · trivial
  · exact ⟨hhead y rfl, htail⟩

theorem pairsOK_head {f : Char → Char → Bool} {x : Char} {xs : Str}
    (h : pairsOK f (x :: xs)) : ∀ y, xs.head? = some y → f x y = true := by
  rcases xs with _ | ⟨y, ys⟩
  · intro y hy; simp at hy
  · intro z hz
    simp at hz
    exact hz ▸ h.1

/-- The space/tab run starting here is immediately followed by `d`. -/
def leadsTo (d : Char) (s : Str) : Prop := (s.dropWhile isST).head? = some d

theorem leadsTo_cons_of_isST {d c : Char} {cs : Str} (hc : isST c = true) :
    leadsTo d (c :: cs) ↔ leadsTo d cs := by
  rw [leadsTo, leadsTo, List.dropWhile_cons, if_pos hc]

instance (d : Char) (s : Str) : Decidable (leadsTo d s) :=
  inferInstanceAs (Decidable ((s.dropWhile isST).head? = some d))

theorem subBefore_cons (d c : Char) (cs : Str) :
    subBefore d (c :: cs) =
      if isST c = true ∧ leadsTo d cs then subBefore d cs else c :: subBefore d cs := by
  rw [subBefore]
  by_cases h : (isST c && ((cs.dropWhile isST).head? = some d) : Bool)
  · rw [if_pos h, if_pos (show isST c = true ∧ leadsTo d cs by simpa [leadsTo] using h)]
  · rw [if_neg h, if_neg (show ¬(isST c = true ∧ leadsTo d cs) by simpa [leadsTo] using h)]

/-- If no space/tab is directly followed by `d` after `x`, the run after
a space/tab `x` does not lead to `d`. -/
theorem not_leadsTo_of_pairsOK {d x : Char} :
    ∀ {s : Str}, pairsOK (noBCf d) (x :: s) → isST x = true → ¬leadsTo d s := by
  intro s
  induction s generalizing x with
  | nil => intro _ _ h; rw [leadsTo] at h; simp at h
  | cons y ys ih =>
    intro hp hx hld
    by_cases hy : isST y = true
    · exact ih (x := y) hp.2 hy ((leadsTo_cons_of_isST hy).mp hld)
    · rw [leadsTo, List.dropWhile_cons, if_neg hy] at hld
      simp at hld
      have := hp.1
      rw [hld, noBCf, hx] at this
      simp at this

/-- Identity: if no space/tab run is followed by `d`, the substitution
does nothing. -/
theorem subBefore_id {d : Char} :
    ∀ {s : Str}, pairsOK (noBCf d) s → subBefore d s = s := by
  intro s
  induction s with
  | nil => intro _; rfl
  | cons c cs ih =>
    intro hp
    rw [subBefore_cons]
    by_cases hc : isST c = true ∧ leadsTo d cs
    · exact absurd hc.2 (not_leadsTo_of_pairsOK hp hc.1)
    · rw [if_neg hc, ih (pairsOK_tail hp)]

theorem subBefore_head_of_leadsTo {d : Char} :
    ∀ {s : Str}, leadsTo d s → (subBefore d s).head? = some d := by
  intro s
  induction s with
  | nil => intro h; rw [leadsTo] at h; simp at h
  | cons c cs ih =>
    intro h
    rw [subBefore_cons]
    by_cases hc : isST c = true
    · rw [if_pos ⟨hc, (leadsTo_cons_of_isST hc).mp h⟩]
      exact ih ((leadsTo_cons_of_isST hc).mp h)
    · rw [leadsTo, List.dropWhile_cons, if_neg hc] at h
      simp at h
      rw [if_neg (by intro h2; exact hc h2.1), h]
      rfl

theorem subBefore_head_of_not_leadsTo {d : Char} :
    ∀ {s : Str}, ¬leadsTo d s → (subBefore d s).head? = s.head? := by
  intro s
  induction s with
  | nil => intro _; rfl
  | cons c cs ih =>
    intro h
    rw [subBefore_cons]
    by_cases hc : isST c = true
    · rw [if_neg (by intro h2; exact h ((leadsTo_cons_of_isST hc).mpr h2.2))]
      rfl
    · rw [if_neg (by intro h2; exact hc h2.1)]
      rfl

/-- After the pass, no space/tab remains directly before `d`
(for a non-space `d`). -/
theorem subBefore_estab (d : Char) (hd : isST d = false) :
    ∀ (s : Str), pairsOK (noBCf d) (subBefore d s) := by
  intro s
  induction s with
  | nil => trivial
  | cons c cs ih =>
    rw [subBefore_cons]
    by_cases hc : isST c = true ∧ leadsTo d cs
    · rw [if_pos hc]
      exact ih
    · rw [if_neg hc]
      refine pairsOK_cons ?_ ih
      intro h hh
      rw [noBCf]
      by_cases hcst : isST c = true
      · have hlt : ¬leadsTo d cs := fun hl => hc ⟨hcst, hl⟩
        rw [subBefore_head_of_not_leadsTo hlt] at hh
        have hn : h ≠ d := by
          intro hdh
          subst hdh
          refine hlt ?_
          rcases cs with _ | ⟨y, ys⟩
          · simp at hh
          · simp at hh
            subst hh
            rw [leadsTo, List.dropWhile_cons, if_neg (by simp [hd])]
            rfl
        simp [hn]
      · simp [hcst]

/-- The pass for symbol `d` preserves any adjacency predicate that
accepts pairs `(a, d)` with non-space `a`. -/
theorem subBefore_preserve {f : Char → Char → Bool} (d : Char)
    (hfd : ∀ a, isST a = false → f a d = true) :
    ∀ (s : Str), pairsOK f s → pairsOK f (subBefore d s) := by
  intro s
  induction s with
  | nil => intro _; trivial
  | cons c cs ih =>
    intro hp
    rw [subBefore_cons]
    by_cases hc : isST c = true ∧ leadsTo d cs
    · rw [if_pos hc]
      exact ih (pairsOK_tail hp)
    · rw [if_neg hc]
      refine pairsOK_cons ?_ (ih (pairsOK_tail hp))
      intro h hh
      by_cases hlt : leadsTo d cs
      · have hcst : isST c = false := by
          rcases h2 : isST c with _ | _
          · rfl
          · exact absurd ⟨h2, hlt⟩ hc
        rw [subBefore_head_of_leadsTo hlt] at hh
        have hdh : d = h := by simpa using hh
        rw [← hdh]
        exact hfd c hcst
      · rw [subBefore_head_of_not_leadsTo hlt] at hh
        exact pairsOK_head hp h hh

theorem subAfterGo_head_false (d : Char) (s : Str) :
    (subAfterGo d false s).head? = s.head? := by
  rcases s with _ | ⟨c, cs⟩
  · rfl
  · rw [subAfterGo]
    simp

theorem subAfterGo_head_true (d : Char) :
    ∀ (s : Str) (h : Char), (subAfterGo d true s).head? = some h → isST h = false := by
  intro s
  induction s with
  | nil => intro h hh; simp [subAfterGo] at hh
  | cons c cs ih =>
    intro h hh
    rw [subAfterGo] at hh
    by_cases hc : isST c = true
    · rw [if_pos (by simp [hc])] at hh
      exact ih h hh
    · rw [if_neg (by simp [hc])] at hh
      simp at hh
      rw [← hh]
      simpa using hc

/-- Identity: with no space/tab directly after `d` (and, in the
`afterD` state, no leading space/tab), the substitution does nothing. -/
theorem subAfterGo_id {d : Char} :
    ∀ (s : Str) (b : Bool), pairsOK (noACf d) s →
    (b = true → ∀ h, s.head? = some h → isST h = false) →
    subAfterGo d b s = s := by
  intro s
  induction s with
  | nil => intro b _ _; rfl
  | cons c cs ih =>
    intro b hp hb
    rw [subAfterGo]
    have hnot : (b && isST c) = false := by
      rcases hbv : b with _ | _
      · rfl
      · simp [hb hbv c rfl]
    rw [hnot, if_neg (by simp)]
    refine congrArg (c :: ·) (ih (decide (c = d)) (pairsOK_tail hp) ?_)
    intro hcd h hh
    have := pairsOK_head hp h hh
    rw [noACf] at this
    simp only [decide_eq_true_eq] at hcd
    rcases h2 : isST h with _ | _
    · rfl
    · rw [hcd, h2] at this
      simp at this

/-- After the pass, no space/tab remains directly after `d`. -/
theorem subAfterGo_estab (d : Char) :
    ∀ (s : Str) (b : Bool), pairsOK (noACf d) (subAfterGo d b s) := by
  intro s
  induction s with
  | nil => intro b; trivial
  | cons c cs ih =>
    intro b
    rw [subAfterGo]
    by_cases hbc : (b && isST c) = true
    · rw [if_pos hbc]
      exact ih true
    · rw [if_neg (by simp [hbc])]
      refine pairsOK_cons ?_ (ih (c = d))
      intro h hh
      rw [noACf]
      by_cases hcd : c = d
      · rw [show (decide (c = d)) = true by simp [hcd]] at hh
        have := subAfterGo_head_true d cs h hh
        simp [this]
      · simp [hcd]

/-- The pass for symbol `d` preserves any adjacency predicate that
accepts pairs `(d, h)` with non-space `h`. -/
theorem subAfterGo_preserve {f : Char → Char → Bool} (d : Char)
    (hfd : ∀ h, isST h = false → f d h = true) :
    ∀ (s : Str) (b : Bool), pairsOK f s → pairsOK f (subAfterGo d b s) := by
  intro s
  induction s with
  | nil => intro b _; trivial
  | cons c cs ih =>
    intro b hp
    rw [subAfterGo]
    by_cases hbc : (b && isST c) = true
    · rw [if_pos hbc]
      exact ih true (pairsOK_tail hp)
    · rw [if_neg (by simp [hbc])]
      refine pairsOK_cons ?_ (ih (c = d) (pairsOK_tail hp))
      intro h hh
      by_cases hcd : c = d
      · rw [show (decide (c = d)) = true by simp [hcd]] at hh
        have hst := subAfterGo_head_true d cs h hh
        rw [hcd]
        exact hfd h hst
      · rw [show (decide (c = d)) = false by simp [hcd]] at hh
        rw [subAfterGo_head_false] at hh
        exact pairsOK_head hp h hh

theorem dropWhile_head_not {p : Char → Bool} :
    ∀ (s : Str) (h : Char), (s.dropWhile p).head? = some h → p h = false := by
  intro s
  induction s with
  | nil => intro h hh; simp at hh
  | cons c cs ih =>
    intro h hh
    rw [List.dropWhile_cons] at hh
    by_cases hc : p c = true
    · rw [if_pos hc] at hh
      exact ih h hh
    · rw [if_neg hc] at hh
      simp at hh
      rw [← hh]
      simpa using hc

theorem collapseGo_head_of_true :
    ∀ (s : Str), (collapseGo true s).head? = (s.dropWhile isST).head? := by
  intro s
  induction s with
  | nil => rfl
  | cons c cs ih =>
    rw [collapseGo, List.dropWhile_cons]
    by_cases hc : isST c = true
    · rw [if_pos hc, if_pos rfl, if_pos hc]
      exact ih
    · rw [if_neg hc, if_neg hc]
      rfl

theorem collapseGo_head_of_false :
    ∀ (s : Str), (collapseGo false s).head? =
      match s.head? with
      | some y => some (if isST y then ' ' else y)
      | none => none := by
  intro s
  rcases s with _ | ⟨c, cs⟩
  · rfl
  · rw [collapseGo]
    by_cases hc : isST c = true
    · rw [if_pos hc]
      simp [hc]
    · rw [if_neg hc]
      simp [hc]

/-- Adjacent-pair chain: an `isST` character is related by `f` to the
first non-space/tab character after it (for left-ST-insensitive `f`). -/
theorem pairsOK_chain {f : Char → Char → Bool}
    (hl : ∀ a a2 h, isST a = true → isST a2 = true → f a h = f a2 h) :
    ∀ (s : Str) (x : Char), pairsOK f (x :: s) → isST x = true →
    ∀ h, (s.dropWhile isST).head? = some h → f x h = true := by
  intro s
  induction s with
  | nil => intro x _ _ h hh; simp at hh
  | cons y ys ih =>
    intro x hp hx h hh
    rw [List.dropWhile_cons] at hh
    by_cases hy : isST y = true
    · rw [if_pos hy] at hh
      rw [hl x y h hx hy]
      exact ih y hp.2 hy h hh
    · rw [if_neg hy] at hh
      simp at hh
      rw [← hh]
      exact hp.1

/-- Identity: on a string with no adjacent spaces/tabs and every
space/tab a plain space, the collapse does nothing. -/
theorem collapseGo_id :
    ∀ (s : Str) (b : Bool), pairsOK noSTf s → (∀ c ∈ s, isST c = true → c = ' ') →
    (b = true → ∀ h, s.head? = some h → isST h = false) →
    collapseGo b s = s := by
  intro s
  induction s with
  | nil => intro b _ _ _; rfl
  | cons c cs ih =>
    intro b hp hsp hb
    rw [collapseGo]
    by_cases hc : isST c = true
    · have hbf : b = false := by
        rcases hbv : b with _ | _
        · rfl
        · exact absurd hc (by simp [hb hbv c rfl])
      rw [if_pos hc, hbf, if_neg (by simp)]
      rw [← hsp c (List.mem_cons_self c cs) hc]
      refine congrArg (c :: ·) (ih true (pairsOK_tail hp) ?_ ?_)
      · exact fun x hx => hsp x (List.mem_cons_of_mem c hx)
      · intro _ h hh
        have h3 := pairsOK_head hp h hh
        rw [noSTf, hc] at h3
        rcases h2 : isST h with _ | _
        · rfl
        · rw [h2] at h3
          simp at h3
    · rw [if_neg hc]
      refine congrArg (c :: ·) (ih false (pairsOK_tail hp) ?_ (by intro h2; simp at h2))
      exact fun x hx => hsp x (List.mem_cons_of_mem c hx)

/-- The collapse leaves no two adjacent spaces/tabs. -/
theorem collapseGo_estab :
    ∀ (s : Str) (b : Bool), pairsOK noSTf (collapseGo b s) := by
  intro s
  induction s with
  | nil => intro b; trivial
  | cons c cs ih =>
    intro b
    rw [collapseGo]
    by_cases hc : isST c = true
    · by_cases hbv : b = true
      · rw [if_pos hc, if_pos hbv]
        exact ih true
      · rw [if_pos hc, if_neg hbv]
        refine pairsOK_cons ?_ (ih true)
        intro h hh
        rw [collapseGo_head_of_true] at hh
        have hst := dropWhile_head_not cs h hh
        rw [noSTf]
        simp [hst]
    · rw [if_neg hc]
      refine pairsOK_cons ?_ (ih false)
      intro h hh
      have hcf : isST c = false := by simpa using hc
      rw [noSTf, hcf]
      simp

/-- Every space/tab in the collapse output is a plain space. -/
theorem collapseGo_spaces :
    ∀ (s : Str) (b : Bool), ∀ c ∈ collapseGo b s, isST c = true → c = ' ' := by
  intro s
  induction s with
  | nil => intro b c hc; simp [collapseGo] at hc
  | cons x xs ih =>
    intro b c hc hcst
    rw [collapseGo] at hc
    by_cases hx : isST x = true
    · by_cases hbv : b = true
      · rw [if_pos hx, if_pos hbv] at hc
        exact ih true c hc hcst
      · rw [if_pos hx, if_neg hbv] at hc
        rcases List.mem_cons.mp hc with h | h
        · exact h
        · exact ih true c h hcst
    · rw [if_neg hx] at hc
      rcases List.mem_cons.mp hc with h | h
      · subst h
        exact absurd hcst (by simpa using hx)
      · exact ih false c h hcst

/-- The collapse preserves any adjacency predicate that is insensitive
to which space/tab character stands on either side. -/
theorem collapseGo_preserve {f : Char → Char → Bool}
    (hl : ∀ a a2 h, isST a = true → isST a2 = true → f a h = f a2 h)
    (hr : ∀ a h h2, isST h = true → isST h2 = true → f a h = f a h2) :
    ∀ (s : Str) (b : Bool), pairsOK f s → pairsOK f (collapseGo b s) := by
  intro s
  induction s with
  | nil => intro b _; trivial
  | cons c cs ih =>
    intro b hp
    rw [collapseGo]
    by_cases hc : isST c = true
    · by_cases hbv : b = true
      · rw [if_pos hc, if_pos hbv]
        exact ih true (pairsOK_tail hp)
      · rw [if_pos hc, if_neg hbv]
        refine pairsOK_cons ?_ (ih true (pairsOK_tail hp))
        intro h hh
        rw [collapseGo_head_of_true] at hh
        rw [hl ' ' c h (by decide) hc]
        exact pairsOK_chain hl cs c hp hc h hh
    · rw [if_neg hc]
      refine pairsOK_cons ?_ (ih false (pairsOK_tail hp))
      intro h hh
      rw [collapseGo_head_of_false] at hh
      rcases hcs : cs.head? with _ | ⟨y⟩
      · rw [hcs] at hh
        simp at hh
      · rw [hcs] at hh
        simp only [Option.some.injEq] at hh
        by_cases hy : isST y = true
        · rw [if_pos hy] at hh
          rw [← hh, hr c ' ' y (by decide) hy]
          exact pairsOK_head hp y hcs
        · rw [if_neg hy] at hh
          rw [← hh]
          exact pairsOK_head hp y hcs

theorem symbols_not_ST : ∀ d ∈ SYMBOLS, isST d = false := by decide

attribute [irreducible] SYMBOLS


/-- The per-symbol normal forms survive later symbol passes. -/
theorem symFold_preserve (e : Char) (he : isST e = false) :
    ∀ (syms : List Char) (t : Str), (∀ d ∈ syms, isST d = false) →
    pairsOK (noBCf e) t → pairsOK (noACf e) t →
    pairsOK (noBCf e) (syms.foldl (fun acc d => subAfter d (subBefore d acc)) t) ∧
    pairsOK (noACf e) (syms.foldl (fun acc d => subAfter d (subBefore d acc)) t) := by
  intro syms
  induction syms with
  | nil => intro t _ h1 h2; exact ⟨h1, h2⟩
  | cons d ds ih =>
    intro t hst h1 h2
    have hd : isST d = false := hst d (List.mem_cons_self d ds)
    have hst2 : ∀ x ∈ ds, isST x = false := fun x hx => hst x (List.mem_cons_of_mem d hx)
    rw [List.foldl_cons]
    refine ih (subAfter d (subBefore d t)) hst2 ?_ ?_
    · refine subAfterGo_preserve d (fun h hh => by simp [noBCf, hd]) _ false ?_
      exact subBefore_preserve d (fun a ha => by simp [noBCf, ha]) t h1
    · refine subAfterGo_preserve d (fun h hh => by simp [noACf, hh]) _ false ?_
      exact subBefore_preserve d (fun a ha => by simp [noACf, hd]) t h2

/-- After the whole symbol fold, no space/tab touches any symbol. -/
theorem symFold_estab :
    ∀ (syms : List Char) (l : Str), (∀ d ∈ syms, isST d = false) →
    ∀ e ∈ syms,
    pairsOK (noBCf e) (syms.foldl (fun acc d => subAfter d (subBefore d acc)) l) ∧
    pairsOK (noACf e) (syms.foldl (fun acc d => subAfter d (subBefore d acc)) l) := by
  intro syms
  induction syms with
  | nil => intro l _ e he; simp at he
  | cons d ds ih =>
    intro l hst e he
    have hd : isST d = false := hst d (List.mem_cons_self d ds)
    have hst2 : ∀ x ∈ ds, isST x = false := fun x hx => hst x (List.mem_cons_of_mem d hx)
    rw [List.foldl_cons]
    rcases List.mem_cons.mp he with hed | heds
    · subst hed
      refine symFold_preserve e hd ds (subAfter e (subBefore e l)) hst2 ?_ ?_
      · refine subAfterGo_preserve e (fun h hh => by simp [noBCf, hd]) _ false ?_
        exact subBefore_estab e hd l
      · exact subAfterGo_estab e (subBefore e l) false
    · exact ih (subAfter d (subBefore d l)) hst2 e heds

/-- On a fully normalized line the whole symbol fold is the identity. -/
theorem symFold_id :
    ∀ (syms : List Char) (t : Str),
    (∀ e ∈ syms, pairsOK (noBCf e) t ∧ pairsOK (noACf e) t) →
    syms.foldl (fun acc d => subAfter d (subBefore d acc)) t = t := by
  intro syms
  induction syms with
  | nil => intro t _; rfl
  | cons d ds ih =>
    intro t hnf
    have hd := hnf d (List.mem_cons_self d ds)
    rw [List.foldl_cons]
    have hb : subBefore d t = t := subBefore_id hd.1
    have ha : subAfterGo d false t = t :=
      subAfterGo_id t false hd.2 (by intro h2; simp at h2)
    rw [subAfter, hb, ha]
    exact ih t fun e he => hnf e (List.mem_cons_of_mem d he)

/-- The collapse is idempotent. -/
theorem collapseST_idem (s : Str) : collapseST (collapseST s) = collapseST s := by
  rw [collapseST, collapseST]
  exact collapseGo_id (collapseGo false s) false (collapseGo_estab s false)
    (collapseGo_spaces s false) (by intro h2; simp at h2)

/-! The first non-whitespace character is untouched by every pass. -/

theorem fnw_subBefore (d : Char) :
    ∀ (s : Str), ((subBefore d s).dropWhile pyIsSpace).head? =
      (s.dropWhile pyIsSpace).head? := by
  intro s
  induction s with
  | nil => rfl
  | cons c cs ih =>
    rw [subBefore_cons]
    by_cases hc : isST c = true ∧ leadsTo d cs
    · rw [if_pos hc, List.dropWhile_cons, if_pos (isST_pyIsSpace hc.1)]
      exact ih
    · rw [if_neg hc]
      by_cases hw : pyIsSpace c = true
      · rw [List.dropWhile_cons, if_pos hw, List.dropWhile_cons, if_pos hw]
        exact ih
      · rw [List.dropWhile_cons, if_neg hw, List.dropWhile_cons, if_neg hw]
        rfl

theorem fnw_subAfterGo (d : Char) :
    ∀ (s : Str) (b : Bool), ((subAfterGo d b s).dropWhile pyIsSpace).head? =
      (s.dropWhile pyIsSpace).head? := by
  intro s
  induction s with
  | nil => intro b; rfl
  | cons c cs ih =>
    intro b
    rw [subAfterGo]
    by_cases hbc : (b && isST c) = true
    · rw [if_pos hbc, List.dropWhile_cons,
        if_pos (isST_pyIsSpace (by simp at hbc; exact hbc.2))]
      exact ih true
    · rw [if_neg (by simp [hbc])]
      by_cases hw : pyIsSpace c = true
      · rw [List.dropWhile_cons, if_pos hw, List.dropWhile_cons, if_pos hw]
        exact ih (decide (c = d))
      · rw [List.dropWhile_cons, if_neg hw, List.dropWhile_cons, if_neg hw]
        rfl

theorem fnw_collapseGo :
    ∀ (s : Str) (b : Bool), ((collapseGo b s).dropWhile pyIsSpace).head? =
      (s.dropWhile pyIsSpace).head? := by
  intro s
  induction s with
  | nil => intro b; rfl
  | cons c cs ih =>
    intro b
    rw [collapseGo]
    by_cases hc : isST c = true
    · by_cases hbv : b = true
      · rw [if_pos hc, if_pos hbv, List.dropWhile_cons, if_pos (isST_pyIsSpace hc)]
        exact ih true
      · rw [if_pos hc, if_neg hbv, List.dropWhile_cons, if_pos (by decide),
          List.dropWhile_cons, if_pos (isST_pyIsSpace hc)]
        exact ih true
    · by_cases hw : pyIsSpace c = true
      · rw [if_neg hc, List.dropWhile_cons, if_pos hw, List.dropWhile_cons, if_pos hw]
        exact ih false
      · rw [if_neg hc, List.dropWhile_cons, if_neg hw, List.dropWhile_cons, if_neg hw]
        rfl

theorem fnw_symFold :
    ∀ (syms : List Char) (l : Str),
    ((syms.foldl (fun acc d => subAfter d (subBefore d acc)) l).dropWhile pyIsSpace).head? =
      (l.dropWhile pyIsSpace).head? := by
  intro syms
  induction syms with
  | nil => intro l; rfl
  | cons d ds ih =>
    intro l
    rw [List.foldl_cons, ih, subAfter, fnw_subAfterGo, fnw_subBefore]

theorem stripHash_of_dir {l : Str} (h : isDirLine l = true) :
    ∃ rest, l.dropWhile pyIsSpace = '#' :: rest ∧ stripHash l = '#' :: rest := by
  rw [isDirLine, pyLstrip] at h
  simp only [decide_eq_true_eq] at h
  rcases hdw : l.dropWhile pyIsSpace with _ | ⟨x, rest⟩
  · rw [hdw] at h
    simp at h
  · rw [hdw] at h
    simp at h
    refine ⟨rest, by rw [h], ?_⟩
    rw [stripHash, hdw]
    change (if x = '#' then '#' :: rest else l) = '#' :: rest
    rw [if_pos h]

theorem collapseST_hash (X : Str) :
    collapseST ('#' :: X) = '#' :: collapseGo false X := by
  rw [collapseST, collapseGo, if_neg (by decide)]

theorem isDirLine_hash (X : Str) : isDirLine ('#' :: X) = true := by
  rw [isDirLine, pyLstrip, List.dropWhile_cons, if_neg (by decide)]
  simp

/-- `normalize_spaces` preserves each line's directive status. -/
theorem isDirLine_normLine (l : Str) : isDirLine (normLine l) = isDirLine l := by
  rw [normLine]
  by_cases hd : isDirLine l = true
  · rw [if_pos hd, hd]
    rcases stripHash_of_dir hd with ⟨rest, _, hsh⟩
    rw [hsh, collapseST_hash, isDirLine_hash]
  · rw [if_neg hd]
    have hfnw : ((collapseST (SYMBOLS.foldl (fun acc d => subAfter d (subBefore d acc)) l)).dropWhile
        pyIsSpace).head? = (l.dropWhile pyIsSpace).head? := by
      rw [collapseST, fnw_collapseGo, fnw_symFold]
    rw [isDirLine, isDirLine, pyLstrip, pyLstrip, hfnw]

/-- `normalize_spaces` keeps every non-blank line non-blank. -/
theorem normLine_nonBlank {l : Str} (h : ∃ c ∈ l, pyIsSpace c = false) :
    ∃ c ∈ normLine l, pyIsSpace c = false := by
  have hiff : ∀ (s : Str), (∃ c ∈ s, pyIsSpace c = false) ↔
      ∃ h2, (s.dropWhile pyIsSpace).head? = some h2 := by
    intro s
    constructor
    · intro ⟨c, hc, hcs⟩
      rcases hdw : s.dropWhile pyIsSpace with _ | ⟨x, rest⟩
      · rw [List.dropWhile_eq_nil_iff] at hdw
        rw [hdw c hc] at hcs
        simp at hcs
      · exact ⟨x, by simp⟩
    · intro ⟨h2, hh⟩
      refine ⟨h2, ?_, dropWhile_head_not s h2 hh⟩
      have : h2 ∈ s.dropWhile pyIsSpace := by
        rcases hdw : s.dropWhile pyIsSpace with _ | ⟨x, rest⟩
        · rw [hdw] at hh
          simp at hh
        · rw [hdw] at hh
          simp at hh
          simp [hh]
      exact (List.dropWhile_sublist pyIsSpace).mem this
  rw [normLine]
  by_cases hd : isDirLine l = true
  · rw [if_pos hd]
    rcases stripHash_of_dir hd with ⟨rest, _, hsh⟩
    rw [hsh, collapseST_hash]
    exact ⟨'#', List.mem_cons_self _ _, by decide⟩
  · rw [if_neg hd]
    rw [hiff] at h ⊢
    rcases h with ⟨h2, hh⟩
    refine ⟨h2, ?_⟩
    rw [collapseST, fnw_collapseGo, fnw_symFold]
    exact hh

/-- `normalize_spaces` is idempotent on each line. -/
theorem normLine_idem (l : Str) : normLine (normLine l) = normLine l := by
  by_cases hd : isDirLine l = true
  · have h1 : normLine l = collapseST (stripHash l) := by
      rw [normLine, if_pos hd]
    rcases stripHash_of_dir hd with ⟨rest, _, hsh⟩
    have h2 : normLine l = '#' :: collapseGo false rest := by
      rw [h1, hsh, collapseST_hash]
    have hdir2 : isDirLine (normLine l) = true := by
      rw [h2]
      exact isDirLine_hash _
    rw [normLine, if_pos hdir2]
    have h3 : stripHash (normLine l) = normLine l := by
      rw [h2, stripHash, List.dropWhile_cons, if_neg (by decide)]
      change (if '#' = '#' then '#' :: collapseGo false rest
        else '#' :: collapseGo false rest) = _
      rw [if_pos rfl]
    rw [h3, h1, hsh, collapseST_idem]
  · have hdf : isDirLine l = false := by simpa using hd
    have h1 : normLine l = collapseST (SYMBOLS.foldl (fun acc d => subAfter d (subBefore d acc)) l) := by
      rw [normLine, if_neg hd]
    have hdir2 : isDirLine (normLine l) = false := by
      rw [isDirLine_normLine, hdf]
    rw [normLine, if_neg (by simp [hdir2])]
    have hnf : ∀ e ∈ SYMBOLS, pairsOK (noBCf e) (normLine l) ∧ pairsOK (noACf e) (normLine l) := by
      intro e he
      have hest := symFold_estab SYMBOLS l symbols_not_ST e he
      have hent : isST e = false := symbols_not_ST e he
      have hbc : pairsOK (noBCf e) (normLine l) := by
        rw [h1, collapseST]
        refine collapseGo_preserve ?_ ?_ _ false hest.1
        · intro a a2 h2 ha ha2
          rw [noBCf, noBCf, ha, ha2]
        · intro a h2 h3 hh2 hh3
          have he2 : h2 ≠ e := fun hc => by rw [hc, hent] at hh2; simp at hh2
          have he3 : h3 ≠ e := fun hc => by rw [hc, hent] at hh3; simp at hh3
          rw [noBCf, noBCf]
          simp [he2, he3]
      have hac : pairsOK (noACf e) (normLine l) := by
        rw [h1, collapseST]
        refine collapseGo_preserve ?_ ?_ _ false hest.2
        · intro a a2 h2 ha ha2
          have he2 : a ≠ e := fun hc => by rw [hc, hent] at ha; simp at ha
          have he3 : a2 ≠ e := fun hc => by rw [hc, hent] at ha2; simp at ha2
          rw [noACf, noACf]
          simp [he2, he3]
        · intro a h2 h3 hh2 hh3
          rw [noACf, noACf, hh2, hh3]
      exact ⟨hbc, hac⟩
    rw [symFold_id SYMBOLS (normLine l) hnf]
    have hcoll : collapseST (normLine l) = normLine l := by
      rw [h1, collapseST_idem]
    exact hcoll

/-! ## The separator structure of the compacted output -/

theorem rnGroupsGo_ne_nil (ls : List Str) :
    ∀ (acc : Str) (p : Bool), rnGroupsGo acc p ls ≠ [] := by
  induction ls with
  | nil => intro acc p; rw [rnGroupsGo]; simp
  | cons l ls ih =>
    intro acc p
    rw [rnGroupsGo]
    by_cases hsep : (isDirLine l || p ||
        (match ls.head? with | some n2 => isDirLine n2 | none => false) : Bool)
    · rw [if_pos hsep]
      simp
    · rw [if_neg hsep]
      exact ih (acc ++ l) (isDirLine l)

/-- The first output group has the directive status of the line group
being assembled. -/
theorem rnGroupsGo_head_dir (ls : List Str) :
    ∀ (acc : Str) (p : Bool), (∃ c ∈ acc, pyIsSpace c = false) →
    ∀ h, (rnGroupsGo acc p ls).head? = some h → isDirLine h = isDirLine acc := by
  induction ls with
  | nil =>
    intro acc p _ h hh
    rw [rnGroupsGo] at hh
    simp at hh
    rw [hh]
  | cons l ls ih =>
    intro acc p hnb h hh
    rw [rnGroupsGo] at hh
    by_cases hsep : (isDirLine l || p ||
        (match ls.head? with | some n2 => isDirLine n2 | none => false) : Bool)
    · rw [if_pos hsep] at hh
      simp at hh
      rw [hh]
    · rw [if_neg hsep] at hh
      have := ih (acc ++ l) (isDirLine l) ⟨hnb.choose,
        List.mem_append_left l hnb.choose_spec.1, hnb.choose_spec.2⟩ h hh
      rw [this, isDirLine_append acc l hnb]

/-- Between any two adjacent output groups, one of this group, the
previous group, or the next group is a directive (the separator
condition of the second pass). -/
def Sep3 : List Str → Prop
  | [] => True
  | [_] => True
  | a :: b :: r =>
    (isDirLine a = true ∨ isDirLine b = true ∨
      (match r.head? with | some n2 => isDirLine n2 = true | none => False)) ∧
    Sep3 (b :: r)

theorem rnGroupsGo_sep3 (ls : List Str) :
    ∀ (acc : Str) (p : Bool), p = isDirLine acc →
    (∃ c ∈ acc, pyIsSpace c = false) →
    (∀ l ∈ ls, ∃ c ∈ l, pyIsSpace c = false) →
    Sep3 (rnGroupsGo acc p ls) := by
  induction ls with
  | nil =>
    intro acc p _ _ _
    rw [rnGroupsGo]
    trivial
  | cons l ls ih =>
    intro acc p hp hnb hlsnb
    have hlnb := hlsnb l (List.mem_cons_self l ls)
    have hlsnb2 : ∀ m ∈ ls, ∃ c ∈ m, pyIsSpace c = false :=
      fun m hm => hlsnb m (List.mem_cons_of_mem l hm)
    rw [rnGroupsGo]
    by_cases hsep : (isDirLine l || p ||
        (match ls.head? with | some n2 => isDirLine n2 | none => false) : Bool)
    · rw [if_pos hsep]
      have htail : Sep3 (rnGroupsGo l (isDirLine l) ls) := ih l (isDirLine l) rfl hlnb hlsnb2
      rcases hgr : rnGroupsGo l (isDirLine l) ls with _ | ⟨b, r⟩
      · exact absurd hgr (rnGroupsGo_ne_nil ls l (isDirLine l))
      · rw [Sep3]
        refine ⟨?_, hgr ▸ htail⟩
        have hbdir : isDirLine b = isDirLine l :=
          rnGroupsGo_head_dir ls l (isDirLine l) hlnb b (by rw [hgr]; rfl)
        simp only [Bool.or_eq_true] at hsep
        rcases hsep with (hdl | hdp) | hnext
        · exact Or.inr (Or.inl (hbdir ▸ hdl))
        · exact Or.inl (by rw [← hp]; exact hdp)
        · rcases ls with _ | ⟨m, ls2⟩
          · simp at hnext
          · simp at hnext
            rw [rnGroupsGo] at hgr
            rw [if_pos (by simp [hnext])] at hgr
            rcases List.cons.injEq .. ▸ hgr with ⟨hb, hr⟩
            refine Or.inr (Or.inr ?_)
            have hrne : rnGroupsGo m (isDirLine m) ls2 ≠ [] := rnGroupsGo_ne_nil ls2 m (isDirLine m)
            rcases hgr2 : rnGroupsGo m (isDirLine m) ls2 with _ | ⟨b2, r2⟩
            · exact absurd hgr2 hrne
            · rw [← hr, hgr2]
              simp only [List.head?_cons]
              have := rnGroupsGo_head_dir ls2 m (isDirLine m)
                (hlsnb2 m (List.mem_cons_self m ls2)) b2 (by rw [hgr2]; rfl)
              rw [this, hnext]
    · rw [if_neg hsep]
      have hparts : isDirLine l = false ∧ p = false := by
        rcases hbl : isDirLine l with _ | _
        · rcases hbp : p with _ | _
          · exact ⟨rfl, rfl⟩
          · exact absurd (by simp [hbl, hbp]) hsep
        · exact absurd (by simp [hbl]) hsep
      refine ih (acc ++ l) (isDirLine l) ?_ ⟨hnb.choose,
        List.mem_append_left l hnb.choose_spec.1, hnb.choose_spec.2⟩ hlsnb2
      rw [isDirLine_append acc l hnb, ← hp, hparts.1, hparts.2]

/-- Under the separator property, the second `remove_newlines` pass puts
a newline before every group: its output is the plain newline-join. -/
theorem rnRest_sep3 (gs : List Str) :
    ∀ (a : Str), Sep3 (a :: gs) → a ++ rnRest (isDirLine a) gs = intercalateNl (a :: gs) := by
  induction gs with
  | nil =>
    intro a _
    rw [rnRest, List.append_nil]
    rfl
  | cons l ls ih =>
    intro a hsep
    rw [Sep3] at hsep
    have hb : (isDirLine l || isDirLine a ||
        (match ls.head? with | some n2 => isDirLine n2 | none => false) : Bool) = true := by
      rcases hsep.1 with h | h | h
      · simp [h]
      · simp [h]
      · rcases hh : ls.head? with _ | n2
        · rw [hh] at h
          exact absurd h (by simp)
        · rw [hh] at h
          simp [hh, h]
    simp only [rnRest]
    rw [if_pos hb]
    show a ++ '\n' :: (l ++ rnRest (isDirLine l) ls) = intercalateNl (a :: l :: ls)
    rw [ih l hsep.2]
    rfl

/-- Every character of an output group of the first pass comes from the
accumulator or from one of the input lines. -/
theorem mem_rnGroupsGo (ls : List Str) :
    ∀ (acc : Str) (p : Bool) (g : Str), g ∈ rnGroupsGo acc p ls →
    ∀ c ∈ g, c ∈ acc ∨ ∃ l ∈ ls, c ∈ l := by
  induction ls with
  | nil =>
    intro acc p g hg c hc
    rw [rnGroupsGo] at hg
    rcases List.mem_cons.mp hg with h | h
    · exact Or.inl (h ▸ hc)
    · simp at h
  | cons l ls ih =>
    intro acc p g hg c hc
    rw [rnGroupsGo] at hg
    by_cases hsep : (isDirLine l || p ||
        (match ls.head? with | some n2 => isDirLine n2 | none => false) : Bool)
    · rw [if_pos hsep] at hg
      rcases List.mem_cons.mp hg with h | h
      · exact Or.inl (h ▸ hc)
      · rcases ih l (isDirLine l) g h c hc with h2 | ⟨m, hm, hcm⟩
        · exact Or.inr ⟨l, List.mem_cons_self l ls, h2⟩
        · exact Or.inr ⟨m, List.mem_cons_of_mem l hm, hcm⟩
    · rw [if_neg hsep] at hg
      rcases ih (acc ++ l) (isDirLine l) g hg c hc with h2 | ⟨m, hm, hcm⟩
      · rcases List.mem_append.mp h2 with h3 | h3
        · exact Or.inl h3
        · exact Or.inr ⟨l, List.mem_cons_self l ls, h3⟩
      · exact Or.inr ⟨m, List.mem_cons_of_mem l hm, hcm⟩

/-- Splitting a nonempty boundary-free string yields that string alone. -/
theorem splitlines_of_boundaryFree (g : Str) (hne : g ≠ [])
    (hb : ∀ c ∈ g, isLineBoundary c = false) : splitlines g = [g] := by
  induction g with
  | nil => exact absurd rfl hne
  | cons c cs ih =>
    have hc : isLineBoundary c = false := hb c (List.mem_cons_self c cs)
    have hno : ¬(c = '\x0d' ∧ cs.head? = some '\n') := by
      rintro ⟨h1, _⟩
      rw [h1] at hc
      exact absurd hc (by decide)
    rw [splitlines_cons c cs hno, if_neg (by simp [hc])]
    rcases cs with _ | ⟨c2, cs2⟩
    · rfl
    · rw [ih (by simp) (fun d hd => hb d (List.mem_cons_of_mem c hd)), consFst]

theorem splitlines_append_nl (g r : Str)
    (hb : ∀ c ∈ g, isLineBoundary c = false) :
    splitlines (g ++ '\n' :: r) = g :: splitlines r := by
  induction g with
  | nil =>
    have hno : ¬(('\n' : Char) = '\x0d' ∧ r.head? = some '\n') := by
      rintro ⟨h1, _⟩
      exact absurd h1 (by decide)
    rw [List.nil_append, splitlines_cons '\n' r hno, if_pos (by decide)]
  | cons c cs ih =>
    have hc : isLineBoundary c = false := hb c (List.mem_cons_self c cs)
    have hno : ¬(c = '\x0d' ∧ (cs ++ '\n' :: r).head? = some '\n') := by
      rintro ⟨h1, _⟩
      rw [h1] at hc
      exact absurd hc (by decide)
    rw [List.cons_append, splitlines_cons c _ hno, if_neg (by simp [hc]),
      ih (fun d hd => hb d (List.mem_cons_of_mem c hd)), consFst]

/-- Splitting the newline-join of nonempty boundary-free pieces recovers
the pieces. -/
theorem splitlines_intercalateNl (gs : List Str) (hne : gs ≠ [])
    (h : ∀ g ∈ gs, g ≠ [] ∧ ∀ c ∈ g, isLineBoundary c = false) :
    splitlines (intercalateNl gs) = gs := by
  induction gs with
  | nil => exact absurd rfl hne
  | cons g gs ih =>
    rcases gs with _ | ⟨g2, rest⟩
    · exact splitlines_of_boundaryFree g (h g (List.mem_cons_self g [])).1
        (h g (List.mem_cons_self g [])).2
    · have : intercalateNl (g :: g2 :: rest) = g ++ '\n' :: intercalateNl (g2 :: rest) := rfl
      rw [this, splitlines_append_nl g _ (h g (List.mem_cons_self g _)).2,
        ih (by simp) (fun m hm => h m (List.mem_cons_of_mem g hm))]

/-- Splitting the newline-join of newline-free pieces at `'\n'` recovers
the pieces. -/
theorem splitNl_intercalateNl (gs : List Str) (hne : gs ≠ [])
    (h : ∀ g ∈ gs, '\n' ∉ g) :
    splitNl (intercalateNl gs) = gs := by
  induction gs with
  | nil => exact absurd rfl hne
  | cons g gs ih =>
    rcases gs with _ | ⟨g2, rest⟩
    · exact splitNl_of_nlFree g (h g (List.mem_cons_self g []))
    · have : intercalateNl (g :: g2 :: rest) = g ++ '\n' :: intercalateNl (g2 :: rest) := rfl
      rw [this, splitNl_append_nl g _ (h g (List.mem_cons_self g _)),
        ih (by simp) (fun m hm => h m (List.mem_cons_of_mem g hm))]

/-- The separator property survives any directive-status-preserving
per-group map. -/
theorem Sep3_map (f : Str → Str) (hf : ∀ g, isDirLine (f g) = isDirLine g) :
    ∀ gs, Sep3 gs → Sep3 (gs.map f) := by
  intro gs
  induction gs with
  | nil => intro _; trivial
  | cons a gs ih =>
    rcases gs with _ | ⟨b, r⟩
    · intro _; trivial
    · intro hsep
      rw [Sep3] at hsep
      rw [List.map_cons, List.map_cons, Sep3]
      refine ⟨?_, ih hsep.2⟩
      rcases hsep.1 with h | h | h
      · exact Or.inl (by rw [hf a, h])
      · exact Or.inr (Or.inl (by rw [hf b, h]))
      · rcases r with _ | ⟨n2, r2⟩
        · simp at h
        · simp only [List.head?_cons] at h
          refine Or.inr (Or.inr ?_)
          rw [List.map_cons]
          simp only [List.head?_cons]
          rw [hf n2, h]

theorem normLine_nil : normLine [] = [] := by
  rw [normLine, if_neg (by decide),
    symFold_id SYMBOLS [] (fun e _ => ⟨trivial, trivial⟩)]
  rfl

/-- C2: running the whitespace-compaction and symbol-normalization stages
(`remove_newlines` then `normalize_spaces`) twice in succession yields the
same output as running them once: the composition is idempotent on every
input text. -/
theorem c2_compaction_idempotent (x : Str) :
    normalize_spaces (remove_newlines (normalize_spaces (remove_newlines x))) =
      normalize_spaces (remove_newlines x) := by
  have hns_nil : normalize_spaces [] = [] := by
    show normLine [] = []
    exact normLine_nil
  rcases hk : keptLines x with _ | ⟨l, ls⟩
  · have h1 : remove_newlines x = [] := by rw [remove_newlines, hk]
    have h3 : remove_newlines [] = [] := rfl
    rw [h1, hns_nil, h3, hns_nil]
  · have hrn : remove_newlines x = l ++ rnRest (isDirLine l) ls := by
      rw [remove_newlines, hk]
    have hnlk : ∀ m ∈ l :: ls, '\n' ∉ m := by
      intro m hm
      exact keptLines_nlFree x m (by rw [hk]; exact hm)
    have hnbk : ∀ m ∈ l :: ls, ∃ c ∈ m, pyIsSpace c = false := by
      intro m hm
      exact keptLines_nonBlank x m (by rw [hk]; exact hm)
    have hbdk : ∀ m ∈ l :: ls, ∀ c ∈ m, isLineBoundary c = false := by
      intro m hm
      exact mem_splitlines_boundaryFree x m
        (List.mem_of_mem_filter (show m ∈ keptLines x by rw [hk]; exact hm))
    have hsplit : splitNl (remove_newlines x) = rnGroupsGo l (isDirLine l) ls := by
      rw [hrn]
      exact splitNl_rnRest ls l (isDirLine l) (hnlk l (List.mem_cons_self l ls))
        (fun m hm => hnlk m (List.mem_cons_of_mem l hm))
    have hgx : normalize_spaces (remove_newlines x) =
        intercalateNl ((rnGroupsGo l (isDirLine l) ls).map normLine) := by
      rw [normalize_spaces, hsplit]
    have hgs_nb : ∀ g ∈ rnGroupsGo l (isDirLine l) ls, ∃ c ∈ g, pyIsSpace c = false :=
      rnGroupsGo_nonBlank ls l (isDirLine l) (hnbk l (List.mem_cons_self l ls))
        (fun m hm => hnbk m (List.mem_cons_of_mem l hm))
    have hgs_nl : ∀ g ∈ rnGroupsGo l (isDirLine l) ls, '\n' ∉ g :=
      rnGroupsGo_nlFree ls l (isDirLine l) (hnlk l (List.mem_cons_self l ls))
        (fun m hm => hnlk m (List.mem_cons_of_mem l hm))
    have hgs_bd : ∀ g ∈ rnGroupsGo l (isDirLine l) ls, ∀ c ∈ g, isLineBoundary c = false := by
      intro g hg c hc
      rcases mem_rnGroupsGo ls l (isDirLine l) g hg c hc with h2 | ⟨m, hm, hcm⟩
      · exact hbdk l (List.mem_cons_self l ls) c h2
      · exact hbdk m (List.mem_cons_of_mem l hm) c hcm
    have hsep : Sep3 (rnGroupsGo l (isDirLine l) ls) :=
      rnGroupsGo_sep3 ls l (isDirLine l) rfl (hnbk l (List.mem_cons_self l ls))
        (fun m hm => hnbk m (List.mem_cons_of_mem l hm))
    have hpgs_nb : ∀ pg ∈ (rnGroupsGo l (isDirLine l) ls).map normLine,
        ∃ c ∈ pg, pyIsSpace c = false := by
      intro pg hpg
      rcases List.mem_map.mp hpg with ⟨g, hg, rfl⟩
      exact normLine_nonBlank (hgs_nb g hg)
    have hpgs_ne_each : ∀ pg ∈ (rnGroupsGo l (isDirLine l) ls).map normLine, pg ≠ [] := by
      intro pg hpg hnil
      rcases hpgs_nb pg hpg with ⟨c, hc, _⟩
      rw [hnil] at hc
      simp at hc
    have hpgs_nl : ∀ pg ∈ (rnGroupsGo l (isDirLine l) ls).map normLine, '\n' ∉ pg := by
      intro pg hpg
      rcases List.mem_map.mp hpg with ⟨g, hg, rfl⟩
      exact normLine_nlFree (hgs_nl g hg)
    have hpgs_bd : ∀ pg ∈ (rnGroupsGo l (isDirLine l) ls).map normLine,
        ∀ c ∈ pg, isLineBoundary c = false := by
      intro pg hpg c hc
      rcases List.mem_map.mp hpg with ⟨g, hg, rfl⟩
      rcases mem_normLine hc with h2 | h2
      · exact hgs_bd g hg c h2
      · rw [h2]
        decide
    have hpsep : Sep3 ((rnGroupsGo l (isDirLine l) ls).map normLine) :=
      Sep3_map normLine isDirLine_normLine (rnGroupsGo l (isDirLine l) ls) hsep
    obtain ⟨pg0, pgs2, hpgs⟩ : ∃ pg0 pgs2,
        (rnGroupsGo l (isDirLine l) ls).map normLine = pg0 :: pgs2 := by
      rcases h : (rnGroupsGo l (isDirLine l) ls).map normLine with _ | ⟨a, b⟩
      · rw [List.map_eq_nil] at h
        exact absurd h (rnGroupsGo_ne_nil ls l (isDirLine l))
      · exact ⟨a, b, rfl⟩
    have hpgs_ne : (rnGroupsGo l (isDirLine l) ls).map normLine ≠ [] := by
      rw [hpgs]
      simp
    have hsl : splitlines (intercalateNl ((rnGroupsGo l (isDirLine l) ls).map normLine)) =
        (rnGroupsGo l (isDirLine l) ls).map normLine :=
      splitlines_intercalateNl _ hpgs_ne
        (fun pg hpg => ⟨hpgs_ne_each pg hpg, hpgs_bd pg hpg⟩)
    have hkept2 : keptLines (intercalateNl ((rnGroupsGo l (isDirLine l) ls).map normLine)) =
        pg0 :: pgs2 := by
      rw [keptLines, hsl, ← hpgs]
      refine List.filter_eq_self.mpr (fun pg hpg => ?_)
      refine decide_eq_true (fun hnil => ?_)
      rcases hpgs_nb pg hpg with ⟨c, hc, hcs⟩
      rw [pyStrip_eq_nil_iff] at hnil
      rw [hnil c hc] at hcs
      exact absurd hcs (by simp)
    have hrn2 : remove_newlines (intercalateNl ((rnGroupsGo l (isDirLine l) ls).map normLine)) =
        pg0 ++ rnRest (isDirLine pg0) pgs2 := by
      rw [remove_newlines, hkept2]
    have hsep2 : Sep3 (pg0 :: pgs2) := hpgs ▸ hpsep
    have hfix : remove_newlines (intercalateNl ((rnGroupsGo l (isDirLine l) ls).map normLine)) =
        intercalateNl ((rnGroupsGo l (isDirLine l) ls).map normLine) := by
      rw [hrn2, rnRest_sep3 pgs2 pg0 hsep2, ← hpgs]
    have hmap : ((rnGroupsGo l (isDirLine l) ls).map normLine).map normLine =
        (rnGroupsGo l (isDirLine l) ls).map normLine := by
      rw [List.map_map]
      refine List.map_congr_left (fun g _ => ?_)
      simp only [Function.comp]
      exact normLine_idem g
    rw [hgx, hfix, normalize_spaces,
      splitNl_intercalateNl _ hpgs_ne hpgs_nl, hmap]
